import Mathlib

/-!
Verification of the `depgraph` build-dependency engine.

This file gives a shallow embedding of `src/lib.rs` and `src/error.rs`:

* file paths are abstracted to `Nat` (the engine treats paths as opaque keys),
* the filesystem is a snapshot `FS : Path → FileState`, where a file is
  absent, present with a modification time, or present but with inaccessible
  metadata (e.g. a permission error: `Path::exists()` reports `false` there,
  because it is defined as `fs::metadata(..).is_ok()`),
* a build function (`Box<Fn(&Path, &[&Path]) -> Result<(), String>>`) is a
  filesystem transformer returning the new filesystem and an optional failure
  message,
* `petgraph::Graph` is modelled by a node list plus an edge list in insertion
  order; `neighbors_directed(idx, Outgoing)` walks the per-node linked list of
  out-edges most-recently-inserted first, which is the reverse of insertion
  order; `petgraph::algo::toposort` is modelled (from its contract: a
  topological order, or an error exactly when the graph has a directed cycle)
  by a fuelled Kahn iteration, and `is_cyclic_directed` by its failure,
* `make` is instrumented to additionally return the list of processed nodes
  and the list of nodes whose build function was invoked; this trace is ghost
  information used only to state the specification.
-/

namespace Depgraph

/-- File paths, abstracted to opaque keys. -/
abbrev Path := Nat

/-- State of one file in a filesystem snapshot. `inaccessible` models a file
whose metadata cannot be read (e.g. permission denied): `Path::exists()`
returns `false` for it and `fs::metadata` returns an error. -/
inductive FileState where
  | absent
  | present (mtime : Nat)
  | inaccessible
  deriving DecidableEq, Repr

/-- A filesystem snapshot. -/
abbrev FS := Path → FileState

/-- Model of `Path::exists()`: true exactly when metadata access succeeds. -/
def pathExists (fs : FS) (p : Path) : Bool :=
  match fs p with
  | .present _ => true
  | _ => false

/-- Model of `fs::metadata(p).unwrap().modified().unwrap()`. Every call site
in the source reaches this only after `pathExists` returned `true`, so the
default value for the other cases is never observable. -/
def mtimeD (fs : FS) (p : Path) : Nat :=
  match fs p with
  | .present t => t
  | _ => 0

/-- A build function: given the output path, the dependency paths and the
current filesystem, it produces the new filesystem and an optional failure
message (`Result<(), String>`). -/
abbrev BuildFn := Path → List Path → FS → FS × Option String

/-- Model of `error::Error` from `src/error.rs`. The `Io` payload is dropped
(the wrapped `std::io::Error` is opaque to the engine). -/
inductive Error where
  | Cycle
  | DuplicateFile
  | MissingFile (p : Path)
  | BuildFailed (msg : String)
  | Io
  deriving DecidableEq

instance : Inhabited BuildFn := ⟨fun _ _ fs => (fs, none)⟩

/-- Model of `DependencyNode`: one file plus, when the file is the output of a
declared rule, that rule's build function. -/
structure DependencyNode where
  filename : Path
  build_fn : Option BuildFn

instance : Inhabited DependencyNode := ⟨⟨0, none⟩⟩

/-- A rule as stored by `DepGraphBuilder::add_rule`: output path, dependency
paths in declared order, build function. -/
abbrev Rule := Path × List Path × BuildFn

/-- Model of `DepGraphBuilder`. -/
structure DepGraphBuilder where
  edges : List Rule

/-- Model of `DepGraphBuilder::new`. -/
def DepGraphBuilder.new : DepGraphBuilder := ⟨[]⟩

/-- Model of `DepGraphBuilder::add_rule`: appends a rule. -/
def DepGraphBuilder.add_rule (b : DepGraphBuilder) (filename : Path)
    (dependencies : List Path) (f : BuildFn) : DepGraphBuilder :=
  ⟨b.edges ++ [(filename, dependencies, f)]⟩

/-- Model of the compiled `DepGraph` (a `petgraph::Graph<DependencyNode, ()>`):
nodes indexed by position, edges `(source, target)` in insertion order. -/
structure DepGraph where
  nodes : List DependencyNode
  edges : List (Nat × Nat)

/-- First pass of `DepGraphBuilder::build`: register one node per rule (in rule
order), failing with `DuplicateFile` when an output path repeats; record each
rule's dependency list for the second pass. `files` models the
`HashMap<PathBuf, NodeIndex>` (keys are unique, so a prepend-and-lookup
association list is equivalent). -/
def pass1 : List Rule → List (Path × Nat) → List DependencyNode →
    List (Nat × List Path) →
    Except Error (List (Path × Nat) × List DependencyNode × List (Nat × List Path))
  | [], files, nodes, ean => .ok (files, nodes, ean)
  | (filename, dependencies, f) :: rest, files, nodes, ean =>
    if (files.lookup filename).isSome then .error .DuplicateFile
    else
      pass1 rest ((filename, nodes.length) :: files)
        (nodes ++ [⟨filename, some f⟩]) (ean ++ [(nodes.length, dependencies)])

/-- Second pass, inner loop: wire the edges of one rule, creating a buildless
leaf node for every dependency path that has no node yet. -/
def pass2Deps : Nat → List Path → List (Path × Nat) → List DependencyNode →
    List (Nat × Nat) → List (Path × Nat) × List DependencyNode × List (Nat × Nat)
  | _, [], files, nodes, edges => (files, nodes, edges)
  | idx, dep :: rest, files, nodes, edges =>
    match files.lookup dep with
    | some idx2 => pass2Deps idx rest files nodes (edges ++ [(idx, idx2)])
    | none =>
      pass2Deps idx rest ((dep, nodes.length) :: files)
        (nodes ++ [⟨dep, none⟩]) (edges ++ [(idx, nodes.length)])

/-- Second pass of `DepGraphBuilder::build`: wire all edges. -/
def pass2 : List (Nat × List Path) → List (Path × Nat) → List DependencyNode →
    List (Nat × Nat) → List (Path × Nat) × List DependencyNode × List (Nat × Nat)
  | [], files, nodes, edges => (files, nodes, edges)
  | (idx, dependencies) :: rest, files, nodes, edges =>
    match pass2Deps idx dependencies files nodes edges with
    | (f2, n2, e2) => pass2 rest f2 n2 e2

/-- The two construction passes of `DepGraphBuilder::build`, before the cycle
check: the graph as assembled from the rules. -/
def buildGraph (rules : List Rule) : Except Error DepGraph :=
  match pass1 rules [] [] [] with
  | .error e => .error e
  | .ok (files, nodes, ean) =>
    match pass2 ean files nodes [] with
    | (_, nodes2, edges2) => .ok ⟨nodes2, edges2⟩

/-- Does node `u` have an incoming edge whose source is still in `remaining`? -/
def hasIncomingFrom (g : DepGraph) (remaining : List Nat) (u : Nat) : Bool :=
  g.edges.any (fun e => remaining.contains e.1 && e.2 == u)

/-- Fuelled Kahn iteration: repeatedly remove a node of `remaining` with no
incoming edge from `remaining`; `none` when no such node exists (a cycle). -/
def topoGo (g : DepGraph) : Nat → List Nat → Option (List Nat)
  | _, [] => some []
  | 0, _ :: _ => none
  | fuel + 1, x :: xs =>
    match (x :: xs).find? (fun u => !hasIncomingFrom g (x :: xs) u) with
    | none => none
    | some u => (topoGo g fuel ((x :: xs).erase u)).map (fun L => u :: L)

/-- Model of `petgraph::algo::toposort` (from its contract): a list of all
nodes in which every edge's source precedes its target, or `none` exactly when
the graph has a directed cycle. The fuel `g.nodes.length` always suffices.
This refines the contract with a smallest-index tie-break; petgraph's
DFS-based implementation may order nodes that are unconstrained by the edges
differently, so every theorem below about `make`'s schedule either follows
from the contract alone (holding for any topological order) or evaluates an
input whose schedule is uniquely determined by the edges. -/
def toposort (g : DepGraph) : Option (List Nat) :=
  topoGo g g.nodes.length (List.range g.nodes.length)

/-- Model of `petgraph::algo::is_cyclic_directed` (true exactly when the graph
has a directed cycle, i.e. when a topological sort is impossible). -/
def is_cyclic_directed (g : DepGraph) : Bool :=
  (toposort g).isNone

/-- Model of `DepGraphBuilder::build`: run the two passes, then reject cyclic
graphs. -/
def build (rules : List Rule) : Except Error DepGraph :=
  match buildGraph rules with
  | .error e => .error e
  | .ok g => if is_cyclic_directed g then .error .Cycle else .ok g

/-- The builder method itself. -/
def DepGraphBuilder.build (b : DepGraphBuilder) : Except Error DepGraph :=
  Depgraph.build b.edges

/-- Model of `MakeParams`. -/
inductive MakeParams where
  | None
  | ForceBuild
  deriving DecidableEq

/-- The node stored at index `idx` (`self.graph.node_weight(idx).unwrap()`;
every index reaching this in the source is valid, so the default is never
observable). -/
def nodeAt (g : DepGraph) (idx : Nat) : DependencyNode :=
  (g.nodes.get? idx).getD ⟨0, none⟩

/-- Model of `self.graph.neighbors_directed(idx, Outgoing)`: petgraph walks a
node's out-edges most-recently-inserted first, i.e. in reverse insertion
order. -/
def neighbors (g : DepGraph) (idx : Nat) : List Nat :=
  ((g.edges.filter (fun e => e.1 == idx)).reverse).map (fun e => e.2)

/-- The `children` list collected at the start of `build_dependency`: the
filenames of the node's out-neighbors. -/
def childPaths (g : DepGraph) (idx : Nat) : List Path :=
  (neighbors g idx).map (fun j => (nodeAt g j).filename)

/-- Model of `fn dependencies_newer`: stale when the output does not exist, or
when some dependency's modification time is strictly newer than the output's. -/
def dependencies_newer (fs : FS) (filename : Path) (deps : List Path) : Bool :=
  if pathExists fs filename = false then true
  else
    deps.any (fun dep => decide (mtimeD fs filename < mtimeD fs dep))

/-- Result of one `build_dependency` step: whether the node's build function
was invoked (ghost trace), the filesystem afterwards, and the error if any. -/
structure StepOut where
  invoked : Bool
  fs : FS
  err : Option Error

/-- Model of `DepGraph::build_dependency`: check that every dependency file
exists (failing with `MissingFile` on the first one that does not, in
`children` order), then run the build function when present and forced or
stale (mapping its failure to `BuildFailed`), and finally check that the
node's own file exists. -/
def build_dependency (g : DepGraph) (idx : Nat) (force : Bool) (fs : FS) : StepOut :=
  let dep := nodeAt g idx
  let children := childPaths g idx
  match children.find? (fun c => !pathExists fs c) with
  | some c => ⟨false, fs, some (.MissingFile c)⟩
  | none =>
    let step : Bool × FS × Option String :=
      match dep.build_fn with
      | some f =>
        if force || dependencies_newer fs dep.filename children then
          let r := f dep.filename children fs
          (true, r.1, r.2)
        else (false, fs, none)
      | none => (false, fs, none)
    match step with
    | (inv, fs2, some msg) => ⟨inv, fs2, some (.BuildFailed msg)⟩
    | (inv, fs2, none) =>
      if pathExists fs2 dep.filename then ⟨inv, fs2, none⟩
      else ⟨inv, fs2, some (.MissingFile dep.filename)⟩

/-- Result of a `make` run: the nodes whose `build_dependency` step ran, the
nodes whose build function was invoked (both ghost traces, in execution
order), the final filesystem, and the error if any. -/
structure MakeOut where
  processed : List Nat
  invoked : List Nat
  fs : FS
  err : Option Error

/-- The loop of `DepGraph::make`: run `build_dependency` on each node in turn,
stopping at the first error. -/
def runNodes (g : DepGraph) (force : Bool) : List Nat → FS → MakeOut
  | [], fs => ⟨[], [], fs, none⟩
  | idx :: rest, fs =>
    let s := build_dependency g idx force fs
    match s.err with
    | some e => ⟨[idx], if s.invoked then [idx] else [], s.fs, some e⟩
    | none =>
      let o := runNodes g force rest s.fs
      ⟨idx :: o.processed, (if s.invoked then [idx] else []) ++ o.invoked, o.fs, o.err⟩

/-- The `force` flag derived from `MakeParams` at the top of `make`. -/
def forceOf (make_params : MakeParams) : Bool :=
  match make_params with
  | .None => false
  | .ForceBuild => true

/-- Model of `DepGraph::make`: topologically sort (a failure is reported as
`Cycle`), then process the nodes in reverse topological order. -/
def make (g : DepGraph) (make_params : MakeParams) (fs : FS) : MakeOut :=
  match toposort g with
  | none => ⟨[], [], fs, some .Cycle⟩
  | some order => runNodes g (forceOf make_params) order.reverse fs

/-! ## Specification-side definitions -/

/-- The output paths declared by a rule list. -/
def outputs (rules : List Rule) : List Path :=
  rules.map (fun r => r.1)

/-- All dependency paths mentioned by a rule list (with repetitions). -/
def depPaths (rules : List Rule) : List Path :=
  rules.flatMap (fun r => r.2.1)

/-- The edge relation of a compiled graph. -/
def DepGraph.HasEdge (g : DepGraph) (a b : Nat) : Prop :=
  (a, b) ∈ g.edges

/-- A directed cycle: a nonempty edge path from some node back to itself
(a self-dependency is the one-step case). -/
def IsCyclic (g : DepGraph) : Prop :=
  ∃ u, Relation.TransGen g.HasEdge u u

/-- Every edge of the graph joins two valid node indices. `build` only ever
creates such graphs. -/
def EdgesValid (g : DepGraph) : Prop :=
  ∀ e ∈ g.edges, e.1 < g.nodes.length ∧ e.2 < g.nodes.length

instance (g : DepGraph) : Decidable (EdgesValid g) := by
  unfold EdgesValid; infer_instance

/-- The staleness condition of the specification: the output file does not
exist, or some direct dependency has a strictly newer modification time. -/
def StaleSpec (fs : FS) (out : Path) (children : List Path) : Prop :=
  pathExists fs out = false ∨
    ∃ c ∈ children, ∃ tc tout, fs c = .present tc ∧ fs out = .present tout ∧ tout < tc

/-- The filesystem contract of a build function for output `out`: it only
ever modifies `out`, and on success it leaves `out` present with a
modification time at least as new as every dependency it was given (a fresh
timestamp from a monotone filesystem clock). -/
def WellBehaved (f : BuildFn) (out : Path) : Prop :=
  ∀ deps fs,
    (∀ p, p ≠ out → (f out deps fs).1 p = fs p) ∧
    ((f out deps fs).2 = none →
      ∃ t, (f out deps fs).1 out = .present t ∧
        ∀ d ∈ deps, ∀ td, fs d = .present td → td ≤ t)

/-- The filename stored at node index `j` of a node list. -/
def nodeName (nodes : List DependencyNode) (j : Nat) : Path :=
  ((nodes.get? j).map (fun d => d.filename)).getD 0

/-- The nodes created by the first pass of `build`: one per rule, in rule
order, owning the rule's build function. -/
def pass1Nodes (rules : List Rule) : List DependencyNode :=
  rules.map (fun r => ⟨r.1, some r.2.2⟩)

/-- The per-node dependency lists recorded by the first pass, with node
indices starting at `base`. -/
def pass1Ean : Nat → List Rule → List (Nat × List Path)
  | _, [] => []
  | base, r :: rest => (base, r.2.1) :: pass1Ean (base + 1) rest

/-- The path-to-index map built by the first pass (later rules are prepended,
so they come first). -/
def pass1Files : Nat → List Rule → List (Path × Nat)
  | _, [] => []
  | base, r :: rest => pass1Files (base + 1) rest ++ [(r.1, base)]

/-- Invariant tying the `files` map to the node arena during `build`: the map
sends each registered path to the index of the unique node carrying it, keys
and node filenames are duplicate-free, every node is registered, and the map
and the arena have the same size. -/
structure BuildInv (files : List (Path × Nat)) (nodes : List DependencyNode) : Prop where
  mapsTo : ∀ p i, (p, i) ∈ files → i < nodes.length ∧ nodeName nodes i = p
  keysNodup : (files.map Prod.fst).Nodup
  namesNodup : (nodes.map (fun d => d.filename)).Nodup
  covered : ∀ d ∈ nodes, d.filename ∈ files.map Prod.fst
  sameLength : files.length = nodes.length

/-! ## Concrete inputs used by the witnesses -/

/-- A well-behaved build function: writes its output with a timestamp one
tick newer than all of its dependencies. -/
def fWit : BuildFn := fun out deps fs =>
  ((fun p => if p = out then .present ((deps.map (mtimeD fs)).foldr max 0 + 1) else fs p), none)

/-- A build function that always fails with the message "boom". -/
def fFail : BuildFn := fun _ _ fs => (fs, some "boom")

/-- A two-node graph: node 0 (output path 0, build function `fWit`) depends on
node 1 (leaf path 1). -/
def gW1 : DepGraph := ⟨[⟨0, some fWit⟩, ⟨1, none⟩], [(0, 1)]⟩

/-- A filesystem where only path 1 exists (mtime 5). -/
def fsW1 : FS := fun p => if p = 1 then .present 5 else .absent

/-- A graph whose single rule node 0 depends on the two leaves 1 and 2
(declared in that order, so iterated as 2 then 1). -/
def gW2 : DepGraph := ⟨[⟨0, some fWit⟩, ⟨1, none⟩, ⟨2, none⟩], [(0, 1), (0, 2)]⟩

/-- The empty filesystem. -/
def fsEmpty : FS := fun _ => .absent

/-- Like `gW1` but with the failing build function. -/
def gWFail : DepGraph := ⟨[⟨0, some fFail⟩, ⟨1, none⟩], [(0, 1)]⟩

/-- A filesystem where path 1 exists but its metadata is inaccessible
(e.g. a permission error). -/
def fsInacc : FS := fun p => if p = 1 then .inaccessible else .absent

/-- Rules with a duplicate output path. -/
def rsDup : List Rule := [(0, [], fWit), (0, [1], fWit)]

/-- Rules with a two-rule dependency cycle. -/
def rsCyc : List Rule := [(0, [1], fWit), (1, [0], fWit)]

/-- A small acyclic rule set: 0 is built from 1 and 2, 1 is built from 2 and 3. -/
def rsAcyc : List Rule := [(0, [1, 2], fWit), (1, [2, 3], fWit)]

/-- A build function (for output 3) that also deletes the files 1 and 2. -/
def fDel12 : BuildFn := fun out _ fs =>
  ((fun p => if p = out then .present 9 else if p = 1 then .absent
    else if p = 2 then .absent else fs p), none)

/-- The graph `build` produces from the rules `(0, [1, 2, 3], fWit)` and
`(3, [1, 2], fDel12)`: node 0 is the rule for output 0, node 1 the rule for
output 3, nodes 2 and 3 the leaves for paths 1 and 2. The edges force the
schedule: node 0 depends on node 1 and both leaves, node 1 depends on both
leaves, so every topological order runs the two (pure, effect-free) leaf
checks first, then node 1, then node 0 — the trace below does not depend on
any tie-break among independent nodes. -/
def gCE5 : DepGraph :=
  ⟨[⟨0, some fWit⟩, ⟨3, some fDel12⟩, ⟨1, none⟩, ⟨2, none⟩],
    [(0, 2), (0, 3), (0, 1), (1, 2), (1, 3)]⟩

/-- A filesystem where paths 1 and 2 exist (mtime 1). -/
def fsCE5 : FS := fun p => if p = 1 then .present 1 else if p = 2 then .present 1 else .absent

/-- A filesystem where every path exists with mtime 1. -/
def fsAll : FS := fun _ => .present 1

/-- The graph `build` produces from `rsAcyc`: nodes 0 and 1 are the two rules,
nodes 2 and 3 the leaves for paths 2 and 3. -/
def gAcyc : DepGraph :=
  ⟨[⟨0, some fWit⟩, ⟨1, some fWit⟩, ⟨2, none⟩, ⟨3, none⟩],
    [(0, 1), (0, 2), (1, 2), (1, 3)]⟩

/-! ## Basic lemmas about the filesystem model -/

theorem pathExists_iff_present (fs : FS) (p : Path) :
    pathExists fs p = true ↔ ∃ t, fs p = .present t := by
  unfold pathExists
  cases h : fs p <;> simp

theorem mtimeD_eq_of_present (fs : FS) (p : Path) (t : Nat) (h : fs p = .present t) :
    mtimeD fs p = t := by
  unfold mtimeD
  rw [h]

theorem dependencies_newer_iff_staleSpec (fs : FS) (out : Path) (children : List Path)
    (hdeps : ∀ c ∈ children, pathExists fs c = true) :
    dependencies_newer fs out children = true ↔ StaleSpec fs out children := by
  unfold dependencies_newer StaleSpec
  cases hout : pathExists fs out with
  | false => simp [hout]
  | true =>
    obtain ⟨tout, hto⟩ := (pathExists_iff_present fs out).mp hout
    simp only [hout, Bool.true_eq_false, if_neg, List.any_eq_true, decide_eq_true_eq,
      Bool.false_eq_true, not_false_eq_true]
    constructor
    · rintro ⟨c, hc, hlt⟩
      obtain ⟨tc, htc⟩ := (pathExists_iff_present fs c).mp (hdeps c hc)
      rw [mtimeD_eq_of_present fs out tout hto, mtimeD_eq_of_present fs c tc htc] at hlt
      exact Or.inr ⟨c, hc, tc, tout, htc, hto, hlt⟩
    · rintro (h | ⟨c, hc, tc, tout2, htc, hto2, hlt⟩)
      · exact h.elim
      · refine ⟨c, hc, ?_⟩
        rw [mtimeD_eq_of_present fs out tout2 hto2, mtimeD_eq_of_present fs c tc htc]
        rw [hto] at hto2
        cases hto2
        exact hlt

/-! ## Unfolding equations for one execution step -/

theorem bd_missing_child (g : DepGraph) (idx : Nat) (force : Bool) (fs : FS)
    (c : Path) (h : (childPaths g idx).find? (fun c => !pathExists fs c) = some c) :
    build_dependency g idx force fs = ⟨false, fs, some (.MissingFile c)⟩ := by
  simp only [build_dependency, h]

theorem bd_no_fn (g : DepGraph) (idx : Nat) (force : Bool) (fs : FS)
    (h : (childPaths g idx).find? (fun c => !pathExists fs c) = none)
    (hf : (nodeAt g idx).build_fn = none) :
    build_dependency g idx force fs =
      if pathExists fs (nodeAt g idx).filename then ⟨false, fs, none⟩
      else ⟨false, fs, some (.MissingFile (nodeAt g idx).filename)⟩ := by
  simp only [build_dependency, h, hf]

theorem bd_skip (g : DepGraph) (idx : Nat) (force : Bool) (fs : FS) (f : BuildFn)
    (h : (childPaths g idx).find? (fun c => !pathExists fs c) = none)
    (hf : (nodeAt g idx).build_fn = some f)
    (hcond : (force || dependencies_newer fs (nodeAt g idx).filename (childPaths g idx)) = false) :
    build_dependency g idx force fs =
      if pathExists fs (nodeAt g idx).filename then ⟨false, fs, none⟩
      else ⟨false, fs, some (.MissingFile (nodeAt g idx).filename)⟩ := by
  simp only [build_dependency, h, hf, hcond, Bool.false_eq_true, if_false]

theorem bd_run_ok (g : DepGraph) (idx : Nat) (force : Bool) (fs : FS) (f : BuildFn)
    (fs2 : FS)
    (h : (childPaths g idx).find? (fun c => !pathExists fs c) = none)
    (hf : (nodeAt g idx).build_fn = some f)
    (hcond : (force || dependencies_newer fs (nodeAt g idx).filename (childPaths g idx)) = true)
    (hres : f (nodeAt g idx).filename (childPaths g idx) fs = (fs2, none)) :
    build_dependency g idx force fs =
      if pathExists fs2 (nodeAt g idx).filename then ⟨true, fs2, none⟩
      else ⟨true, fs2, some (.MissingFile (nodeAt g idx).filename)⟩ := by
  simp only [build_dependency, h, hf, hcond, hres, if_true]

theorem bd_run_fail (g : DepGraph) (idx : Nat) (force : Bool) (fs : FS) (f : BuildFn)
    (fs2 : FS) (msg : String)
    (h : (childPaths g idx).find? (fun c => !pathExists fs c) = none)
    (hf : (nodeAt g idx).build_fn = some f)
    (hcond : (force || dependencies_newer fs (nodeAt g idx).filename (childPaths g idx)) = true)
    (hres : f (nodeAt g idx).filename (childPaths g idx) fs = (fs2, some msg)) :
    build_dependency g idx force fs = ⟨true, fs2, some (.BuildFailed msg)⟩ := by
  simp only [build_dependency, h, hf, hcond, hres, if_true]

/-- C1: for a node owning a build function whose dependencies all exist on
disk, `make(Normal)`'s per-node step (`build_dependency` with `force = false`)
invokes the build function if and only if the node's output file is missing or
some direct dependency's modification time is strictly newer than the
output's; with `force = true` (`MakeParams::ForceBuild`) it invokes the build
function unconditionally, regardless of timestamps. -/
theorem build_dependency_invokes_iff_stale (g : DepGraph) (idx : Nat) (fs : FS)
    (hfn : (nodeAt g idx).build_fn.isSome = true)
    (hdeps : ∀ c ∈ childPaths g idx, pathExists fs c = true) :
    ((build_dependency g idx false fs).invoked = true ↔
      StaleSpec fs (nodeAt g idx).filename (childPaths g idx))
    ∧ (build_dependency g idx true fs).invoked = true := by
  obtain ⟨f, hf⟩ := Option.isSome_iff_exists.mp hfn
  have hfind : (childPaths g idx).find? (fun c => !pathExists fs c) = none := by
    rw [List.find?_eq_none]
    intro c hc
    simp [hdeps c hc]
  constructor
  · cases hdn : dependencies_newer fs (nodeAt g idx).filename (childPaths g idx) with
    | false =>
      rw [bd_skip g idx false fs f hfind hf (by simp [hdn])]
      constructor
      · intro hinv
        exfalso
        revert hinv
        split <;> simp
      · intro hstale
        exact absurd ((dependencies_newer_iff_staleSpec fs _ _ hdeps).mpr hstale)
          (by simp [hdn])
    | true =>
      have hiff := (dependencies_newer_iff_staleSpec fs (nodeAt g idx).filename
        (childPaths g idx) hdeps)
      rcases hres : f (nodeAt g idx).filename (childPaths g idx) fs with ⟨fs2, msg⟩
      cases msg with
      | none =>
        rw [bd_run_ok g idx false fs f fs2 hfind hf (by simp [hdn]) hres]
        by_cases hex : pathExists fs2 (nodeAt g idx).filename = true
        · simp only [hex, if_true]
          simp [hiff.mp hdn]
        · simp only [eq_false_of_ne_true hex, if_false]
          simp [hiff.mp hdn]
      | some m =>
        rw [bd_run_fail g idx false fs f fs2 m hfind hf (by simp [hdn]) hres]
        simp [hiff.mp hdn]
  · rcases hres : f (nodeAt g idx).filename (childPaths g idx) fs with ⟨fs2, msg⟩
    cases msg with
    | none =>
      rw [bd_run_ok g idx true fs f fs2 hfind hf (by simp) hres]
      by_cases hex : pathExists fs2 (nodeAt g idx).filename = true
      · simp [hex]
      · simp [eq_false_of_ne_true hex]
    | some m =>
      rw [bd_run_fail g idx true fs f fs2 m hfind hf (by simp) hres]

/-- Witness for C1: in `gW1` over `fsW1` the output 0 is absent, so the step
invokes the build function, in normal and in force mode. -/
theorem build_dependency_invokes_iff_stale_witness :
    (build_dependency gW1 0 false fsW1).invoked = true
    ∧ (build_dependency gW1 0 true fsW1).invoked = true := by
  have h := build_dependency_invokes_iff_stale gW1 0 fsW1 (by decide) (by decide)
  exact ⟨h.1.mpr (Or.inl (by decide)), h.2⟩

/-! ## Lemmas about the make loop -/

theorem runNodes_ok_processed (g : DepGraph) (force : Bool) (l : List Nat) :
    ∀ fs : FS, (runNodes g force l fs).err = none →
      (runNodes g force l fs).processed = l := by
  induction l with
  | nil => intro fs _; rfl
  | cons idx rest ih =>
    intro fs
    simp only [runNodes]
    cases herr : (build_dependency g idx force fs).err with
    | some e => intro h; exact absurd h (by simp)
    | none =>
      intro h
      simp only [List.cons.injEq, true_and]
      exact ih (build_dependency g idx force fs).fs h

theorem runNodes_processed_take (g : DepGraph) (force : Bool) (l : List Nat) :
    ∀ fs : FS, ∃ k, k ≤ l.length ∧ (runNodes g force l fs).processed = l.take k := by
  induction l with
  | nil => intro fs; exact ⟨0, by simp, rfl⟩
  | cons idx rest ih =>
    intro fs
    simp only [runNodes]
    cases herr : (build_dependency g idx force fs).err with
    | some e => exact ⟨1, by simp, by simp⟩
    | none =>
      obtain ⟨k, hk, hp⟩ := ih (build_dependency g idx force fs).fs
      exact ⟨k + 1, by simpa using hk, by simp [hp]⟩

theorem runNodes_append_ok (g : DepGraph) (force : Bool) (l1 l2 : List Nat) :
    ∀ fs : FS, (runNodes g force l1 fs).err = none →
      runNodes g force (l1 ++ l2) fs =
        ⟨(runNodes g force l1 fs).processed ++
            (runNodes g force l2 (runNodes g force l1 fs).fs).processed,
          (runNodes g force l1 fs).invoked ++
            (runNodes g force l2 (runNodes g force l1 fs).fs).invoked,
          (runNodes g force l2 (runNodes g force l1 fs).fs).fs,
          (runNodes g force l2 (runNodes g force l1 fs).fs).err⟩ := by
  induction l1 with
  | nil => intro fs _; simp only [List.nil_append]; rfl
  | cons idx rest ih =>
    intro fs
    cases herr : (build_dependency g idx force fs).err with
    | some e =>
      intro h
      exfalso
      simp only [runNodes, herr] at h
      exact Option.noConfusion h
    | none =>
      intro h
      simp only [runNodes, herr, List.append_eq] at h ⊢
      rw [ih (build_dependency g idx force fs).fs h]
      simp

theorem runNodes_err_split (g : DepGraph) (force : Bool) (l : List Nat) :
    ∀ (fs : FS) (e : Error), (runNodes g force l fs).err = some e →
      ∃ l1 idx l2, l = l1 ++ idx :: l2 ∧
        (runNodes g force l1 fs).err = none ∧
        (build_dependency g idx force (runNodes g force l1 fs).fs).err = some e ∧
        (runNodes g force l fs).processed = l1 ++ [idx] ∧
        (runNodes g force l fs).invoked = (runNodes g force l1 fs).invoked ++
          (if (build_dependency g idx force (runNodes g force l1 fs).fs).invoked
            then [idx] else []) := by
  induction l with
  | nil => intro fs e h; exact absurd h (by simp [runNodes])
  | cons idx rest ih =>
    intro fs e
    cases herr : (build_dependency g idx force fs).err with
    | some e2 =>
      intro h
      simp only [runNodes, herr] at h
      cases h
      refine ⟨[], idx, rest, rfl, rfl, ?_, ?_, ?_⟩
      · simpa [runNodes] using herr
      · simp [runNodes, herr]
      · simp [runNodes, herr]
    | none =>
      intro h
      simp only [runNodes, herr] at h
      obtain ⟨l1, i, l2, hsplit, hok, hbd, hproc, hinv⟩ :=
        ih (build_dependency g idx force fs).fs e h
      refine ⟨idx :: l1, i, l2, by simp [hsplit], ?_, ?_, ?_, ?_⟩
      · simp only [runNodes, herr]
        exact hok
      · simp only [runNodes, herr]
        exact hbd
      · simp only [runNodes, herr, hproc, List.cons_append]
      · simp only [runNodes, herr, hinv, List.append_assoc]

theorem bd_err_cases (g : DepGraph) (idx : Nat) (force : Bool) (fs : FS) (e : Error)
    (h : (build_dependency g idx force fs).err = some e) :
    (∃ p, e = .MissingFile p) ∨ ∃ m, e = .BuildFailed m := by
  cases hfind : (childPaths g idx).find? (fun c => !pathExists fs c) with
  | some c =>
    rw [bd_missing_child g idx force fs c hfind] at h
    cases h
    exact Or.inl ⟨c, rfl⟩
  | none =>
    cases hf : (nodeAt g idx).build_fn with
    | none =>
      rw [bd_no_fn g idx force fs hfind hf] at h
      revert h
      split
      · intro h; exact Option.noConfusion h
      · intro h; cases h; exact Or.inl ⟨_, rfl⟩
    | some f =>
      cases hcond : (force || dependencies_newer fs (nodeAt g idx).filename (childPaths g idx)) with
      | false =>
        rw [bd_skip g idx force fs f hfind hf hcond] at h
        revert h
        split
        · intro h; exact Option.noConfusion h
        · intro h; cases h; exact Or.inl ⟨_, rfl⟩
      | true =>
        rcases hres : f (nodeAt g idx).filename (childPaths g idx) fs with ⟨fs2, msg⟩
        cases msg with
        | none =>
          rw [bd_run_ok g idx force fs f fs2 hfind hf hcond hres] at h
          revert h
          split
          · intro h; exact Option.noConfusion h
          · intro h; cases h; exact Or.inl ⟨_, rfl⟩
        | some m =>
          rw [bd_run_fail g idx force fs f fs2 m hfind hf hcond hres] at h
          cases h
          exact Or.inr ⟨m, rfl⟩

/-- C8: `make` never returns an `Io` error: every error it can return is
`Cycle`, `MissingFile` or `BuildFailed`. The engine never constructs
`Error::Io` — `dependencies_newer` calls `fs::metadata(..).unwrap()`, which
panics instead of returning the error, and a file whose metadata is
inaccessible (e.g. permission denied) makes `Path::exists()` return `false`,
so it is reported as `MissingFile`: the second conjunct shows the
permission-denied leaf 1 of `gW1` surfacing as `MissingFile 1`. -/
theorem make_never_returns_io :
    (∀ (g : DepGraph) (mp : MakeParams) (fs : FS) (e : Error),
      (make g mp fs).err = some e →
        e = .Cycle ∨ (∃ p, e = .MissingFile p) ∨ ∃ m, e = .BuildFailed m)
    ∧ (make gW1 .None fsInacc).err = some (.MissingFile 1) := by
  constructor
  · intro g mp fs e h
    unfold make at h
    cases htopo : toposort g with
    | none => rw [htopo] at h; simp only at h; cases h; exact Or.inl rfl
    | some order =>
      rw [htopo] at h
      simp only at h
      obtain ⟨l1, idx, l2, _, _, hbd, _, _⟩ :=
        runNodes_err_split g (forceOf mp) order.reverse fs e h
      exact Or.inr (bd_err_cases g idx (forceOf mp) (runNodes g (forceOf mp) l1 fs).fs e hbd)
  · decide

/-- Witness for C8: applying the characterization to the concrete
permission-denied run. -/
theorem make_never_returns_io_witness :
    Error.MissingFile 1 = Error.Cycle
    ∨ (∃ p, Error.MissingFile 1 = Error.MissingFile p)
    ∨ ∃ m, Error.MissingFile 1 = Error.BuildFailed m :=
  make_never_returns_io.1 gW1 MakeParams.None fsInacc (Error.MissingFile 1)
    make_never_returns_io.2

/-- C6: if, at a point of the schedule where all earlier steps succeeded, the
failing node owns a build function, its dependencies all exist, the
staleness/force test fires, and the invoked build function returns a failure
with message `m`, then `make` returns `BuildFailed` carrying exactly the
string `m` and the processed nodes are exactly the earlier ones plus the
failing node — no node scheduled after it has its execution step run. -/
theorem buildFailed_propagates_and_stops (g : DepGraph) (mp : MakeParams) (fs : FS)
    (order l1 l2 : List Nat) (idx : Nat) (f : BuildFn) (fs2 : FS) (m : String)
    (htopo : toposort g = some order)
    (hsched : order.reverse = l1 ++ idx :: l2)
    (hok : (runNodes g (forceOf mp) l1 fs).err = none)
    (hf : (nodeAt g idx).build_fn = some f)
    (hdeps : ∀ c ∈ childPaths g idx,
      pathExists (runNodes g (forceOf mp) l1 fs).fs c = true)
    (hcond : (forceOf mp || dependencies_newer (runNodes g (forceOf mp) l1 fs).fs
      (nodeAt g idx).filename (childPaths g idx)) = true)
    (hres : f (nodeAt g idx).filename (childPaths g idx)
      (runNodes g (forceOf mp) l1 fs).fs = (fs2, some m)) :
    (make g mp fs).err = some (.BuildFailed m)
    ∧ (make g mp fs).processed = l1 ++ [idx] := by
  have hfind : (childPaths g idx).find? (fun c =>
      !pathExists (runNodes g (forceOf mp) l1 fs).fs c) = none := by
    rw [List.find?_eq_none]
    intro c hc
    simp [hdeps c hc]
  have hstep := bd_run_fail g idx (forceOf mp) (runNodes g (forceOf mp) l1 fs).fs
    f fs2 m hfind hf hcond hres
  have hmake : make g mp fs = runNodes g (forceOf mp) (l1 ++ idx :: l2) fs := by
    simp only [make, htopo, hsched]
  rw [hmake, runNodes_append_ok g (forceOf mp) l1 (idx :: l2) fs hok]
  simp only [runNodes, hstep]
  refine ⟨?_, ?_⟩
  · simp
  · rw [runNodes_ok_processed g (forceOf mp) l1 fs hok]

/-- Witness for C6: `gWFail`'s rule for output 0 fails with "boom"; `make`
stops right there with `BuildFailed "boom"`. -/
theorem buildFailed_propagates_and_stops_witness :
    (make gWFail .None fsW1).err = some (.BuildFailed "boom")
    ∧ (make gWFail .None fsW1).processed = [1] ++ [0] :=
  buildFailed_propagates_and_stops gWFail .None fsW1 [0, 1] [1] [] 0 fFail
    (runNodes gWFail (forceOf .None) [1] fsW1).fs "boom"
    (by decide) (by decide) (by decide) rfl (by decide) (by decide) rfl

/-! ## Lemmas about List.find? and first elements -/

theorem find?_some_split {α : Type} (q : α → Bool) (l : List α) (a : α)
    (h : l.find? q = some a) :
    ∃ pre post, l = pre ++ a :: post ∧ (∀ x ∈ pre, q x = false) ∧ q a = true := by
  induction l with
  | nil => cases h
  | cons x xs ih =>
    cases hx : q x with
    | true =>
      rw [List.find?_cons_of_pos _ hx] at h
      cases h
      exact ⟨[], xs, rfl, by simp, hx⟩
    | false =>
      rw [List.find?_cons_of_neg _ (by simp [hx])] at h
      obtain ⟨pre, post, hsplit, hpre, ha⟩ := ih h
      exact ⟨x :: pre, post, by simp [hsplit], by
        intro y hy
        rcases List.mem_cons.mp hy with rfl | hy2
        · exact hx
        · exact hpre y hy2, ha⟩

theorem find?_append_first {α : Type} (q : α → Bool) (pre : List α) (a : α)
    (post : List α) (hpre : ∀ x ∈ pre, q x = false) (ha : q a = true) :
    (pre ++ a :: post).find? q = some a := by
  induction pre with
  | nil => simpa using List.find?_cons_of_pos post ha
  | cons x xs ih =>
    rw [List.cons_append, List.find?_cons_of_neg _ (by simp [hpre x (by simp)])]
    exact ih (fun y hy => hpre y (by simp [hy]))

/-- C5 (amended): a `build_dependency` step fails with `MissingFile p` exactly
when `p` is the first dependency, in the node's iteration order over its
direct dependencies, that does not exist before the (possibly skipped) build
step, or when all dependencies exist, the build step did not itself fail, and
`p` is the node's own output path and does not exist after the step (this
covers leaf nodes with no build function). In the missing-dependency case the
node's build function is not invoked and the filesystem is untouched. At the
`make` level, any non-`Cycle` error arises at a unique failing node of the
schedule and no node ordered after it is processed. -/
theorem make_missingFile_characterization :
    (∀ (g : DepGraph) (idx : Nat) (force : Bool) (fs : FS) (p : Path),
      ((build_dependency g idx force fs).err = some (.MissingFile p) ↔
        (∃ pre post, childPaths g idx = pre ++ p :: post
          ∧ (∀ c ∈ pre, pathExists fs c = true) ∧ pathExists fs p = false)
        ∨ ((∀ c ∈ childPaths g idx, pathExists fs c = true)
          ∧ p = (nodeAt g idx).filename
          ∧ pathExists (build_dependency g idx force fs).fs p = false
          ∧ ∀ m, (build_dependency g idx force fs).err ≠ some (.BuildFailed m))))
    ∧ (∀ (g : DepGraph) (idx : Nat) (force : Bool) (fs : FS) (p : Path),
      (∃ pre post, childPaths g idx = pre ++ p :: post
        ∧ (∀ c ∈ pre, pathExists fs c = true) ∧ pathExists fs p = false) →
      build_dependency g idx force fs = ⟨false, fs, some (.MissingFile p)⟩)
    ∧ (∀ (g : DepGraph) (mp : MakeParams) (fs : FS) (e : Error),
      (make g mp fs).err = some e → e ≠ .Cycle →
      ∃ order l1 idx l2, toposort g = some order ∧ order.reverse = l1 ++ idx :: l2
        ∧ (runNodes g (forceOf mp) l1 fs).err = none
        ∧ (build_dependency g idx (forceOf mp)
            (runNodes g (forceOf mp) l1 fs).fs).err = some e
        ∧ (make g mp fs).processed = l1 ++ [idx]) := by
  have hmiss : ∀ (g : DepGraph) (idx : Nat) (force : Bool) (fs : FS) (p : Path),
      (∃ pre post, childPaths g idx = pre ++ p :: post
        ∧ (∀ c ∈ pre, pathExists fs c = true) ∧ pathExists fs p = false) →
      build_dependency g idx force fs = ⟨false, fs, some (.MissingFile p)⟩ := by
    rintro g idx force fs p ⟨pre, post, hsplit, hpre, hp⟩
    refine bd_missing_child g idx force fs p ?_
    rw [hsplit]
    exact find?_append_first _ pre p post
      (fun x hx => by simp [hpre x hx]) (by simp [hp])
  refine ⟨?_, hmiss, ?_⟩
  · intro g idx force fs p
    constructor
    · intro h
      cases hfind : (childPaths g idx).find? (fun c => !pathExists fs c) with
      | some c =>
        rw [bd_missing_child g idx force fs c hfind] at h
        simp only [Option.some.injEq, Error.MissingFile.injEq] at h
        subst h
        obtain ⟨pre, post, hsplit, hpre, hc⟩ := find?_some_split _ _ _ hfind
        exact Or.inl ⟨pre, post, hsplit,
          fun x hx => by simpa using hpre x hx, by simpa using hc⟩
      | none =>
        have hall : ∀ c ∈ childPaths g idx, pathExists fs c = true := by
          intro c hc
          have h2 := List.find?_eq_none.mp hfind c hc
          simpa using h2
        refine Or.inr ⟨hall, ?_⟩
        cases hf : (nodeAt g idx).build_fn with
        | none =>
          rw [bd_no_fn g idx force fs hfind hf] at h ⊢
          cases hex : pathExists fs (nodeAt g idx).filename with
          | true =>
            rw [if_pos (by simp [hex])] at h
            exact Option.noConfusion h
          | false =>
            rw [if_neg (by simp [hex])] at h
            simp only [Option.some.injEq, Error.MissingFile.injEq] at h
            subst h
            rw [if_neg (by simp [hex])]
            exact ⟨rfl, by simp [hex], by simp⟩
        | some f =>
          cases hcond : (force || dependencies_newer fs (nodeAt g idx).filename
              (childPaths g idx)) with
          | false =>
            rw [bd_skip g idx force fs f hfind hf hcond] at h ⊢
            cases hex : pathExists fs (nodeAt g idx).filename with
            | true =>
              rw [if_pos (by simp [hex])] at h
              exact Option.noConfusion h
            | false =>
              rw [if_neg (by simp [hex])] at h
              simp only [Option.some.injEq, Error.MissingFile.injEq] at h
              subst h
              rw [if_neg (by simp [hex])]
              exact ⟨rfl, by simp [hex], by simp⟩
          | true =>
            rcases hres : f (nodeAt g idx).filename (childPaths g idx) fs with ⟨fs2, msg⟩
            cases msg with
            | none =>
              rw [bd_run_ok g idx force fs f fs2 hfind hf hcond hres] at h ⊢
              cases hex : pathExists fs2 (nodeAt g idx).filename with
              | true =>
                rw [if_pos (by simp [hex])] at h
                exact Option.noConfusion h
              | false =>
                rw [if_neg (by simp [hex])] at h
                simp only [Option.some.injEq, Error.MissingFile.injEq] at h
                subst h
                rw [if_neg (by simp [hex])]
                exact ⟨rfl, by simp [hex], by simp⟩
            | some m =>
              rw [bd_run_fail g idx force fs f fs2 m hfind hf hcond hres] at h
              exact absurd h (by simp)
    · rintro (hfirst | ⟨hall, hp, hex, hnf⟩)
      · rw [hmiss g idx force fs p hfirst]
      · have hfind : (childPaths g idx).find? (fun c => !pathExists fs c) = none := by
          rw [List.find?_eq_none]
          intro c hc
          simp [hall c hc]
        cases hf : (nodeAt g idx).build_fn with
        | none =>
          rw [bd_no_fn g idx force fs hfind hf] at hex ⊢
          have hfs2 : (if pathExists fs (nodeAt g idx).filename = true
              then (⟨false, fs, none⟩ : StepOut)
              else ⟨false, fs, some (.MissingFile (nodeAt g idx).filename)⟩).fs = fs := by
            split <;> rfl
          rw [hfs2, hp] at hex
          rw [if_neg (by simp [hex]), hp]
        | some f =>
          cases hcond : (force || dependencies_newer fs (nodeAt g idx).filename
              (childPaths g idx)) with
          | false =>
            rw [bd_skip g idx force fs f hfind hf hcond] at hex ⊢
            have hfs2 : (if pathExists fs (nodeAt g idx).filename = true
                then (⟨false, fs, none⟩ : StepOut)
                else ⟨false, fs, some (.MissingFile (nodeAt g idx).filename)⟩).fs = fs := by
              split <;> rfl
            rw [hfs2, hp] at hex
            rw [if_neg (by simp [hex]), hp]
          | true =>
            rcases hres : f (nodeAt g idx).filename (childPaths g idx) fs with ⟨fs2, msg⟩
            cases msg with
            | none =>
              rw [bd_run_ok g idx force fs f fs2 hfind hf hcond hres] at hex ⊢
              have hfs3 : (if pathExists fs2 (nodeAt g idx).filename = true
                  then (⟨true, fs2, none⟩ : StepOut)
                  else ⟨true, fs2, some (.MissingFile (nodeAt g idx).filename)⟩).fs = fs2 := by
                split <;> rfl
              rw [hfs3, hp] at hex
              rw [if_neg (by simp [hex]), hp]
            | some m =>
              exfalso
              refine hnf m ?_
              rw [bd_run_fail g idx force fs f fs2 m hfind hf hcond hres]
  · intro g mp fs e h hnc
    unfold make at h
    cases htopo : toposort g with
    | none =>
      rw [htopo] at h
      simp only at h
      cases h
      exact absurd rfl hnc
    | some order =>
      rw [htopo] at h
      simp only at h
      obtain ⟨l1, idx, l2, hsplit, hok, hbd, hproc, _⟩ :=
        runNodes_err_split g (forceOf mp) order.reverse fs e h
      refine ⟨order, l1, idx, l2, rfl, hsplit, hok, hbd, ?_⟩
      simp only [make, htopo]
      exact hproc

/-- Witness for C5: in `gW2` over the empty filesystem, node 0's first
missing dependency in iteration order is path 2, and the step reports it. -/
theorem make_missingFile_characterization_witness :
    (build_dependency gW2 0 false fsEmpty).err = some (.MissingFile 2) :=
  (make_missingFile_characterization.1 gW2 0 false fsEmpty 2).mpr
    (Or.inl ⟨[], [1], by decide, by decide, by decide⟩)

/-- Counterexample to C5 as literally stated, in two parts, both on inputs
whose execution order is fully forced by the dependency edges, so any correct
topological sort — in particular petgraph's — produces the same trace.

First part (`gCE5`): rule 0 depends on the declared paths 1, 2 and 3, and
rule 3 (which every schedule must run after the two leaves and before node 0,
because node 0 depends on its output and it depends on both leaves) deletes
the files 1 and 2 while producing 3. Node 0 is then processed with both of
its direct dependencies 1 and 2 missing, and the error names only path 2 (the
first in its iteration order), not path 1, although path 1 is also a direct
dependency of that node that does not exist on disk before the build step —
so "fails with MissingFile(p) exactly when p is a direct dependency that does
not exist" fails for p = 1.

Second part (`gWFail`, schedule forced to leaf 1 then node 0): node 0's build
function is invoked and fails, leaving its own output path 0 absent after the
build step, yet `make` returns `BuildFailed "boom"`, not `MissingFile 0` — so
"fails with MissingFile(p) exactly when p is the node's own output path and it
does not exist after the (possibly skipped) build step" fails for p = 0. -/
theorem missingFile_names_first_missing_dep_only :
    ((make gCE5 .None fsCE5).err = some (.MissingFile 2)
      ∧ 1 ∈ childPaths gCE5 0
      ∧ 0 ∈ (make gCE5 .None fsCE5).processed
      ∧ pathExists (make gCE5 .None fsCE5).fs 1 = false
      ∧ (make gCE5 .None fsCE5).err ≠ some (.MissingFile 1))
    ∧ ((make gWFail .None fsW1).err = some (.BuildFailed "boom")
      ∧ (nodeAt gWFail 0).filename = 0
      ∧ 0 ∈ (make gWFail .None fsW1).processed
      ∧ pathExists (make gWFail .None fsW1).fs 0 = false
      ∧ (make gWFail .None fsW1).err ≠ some (.MissingFile 0)) := by
  refine ⟨⟨by decide, by decide, by decide, by decide, by decide⟩,
    by decide, by decide, by decide, by decide, by decide⟩

/-! ## Correctness of the topological sort model -/

theorem hasIncomingFrom_true_iff (g : DepGraph) (r : List Nat) (u : Nat) :
    hasIncomingFrom g r u = true ↔ ∃ v, (v, u) ∈ g.edges ∧ v ∈ r := by
  unfold hasIncomingFrom
  rw [List.any_eq_true]
  constructor
  · rintro ⟨⟨v, w⟩, he, hprop⟩
    rw [Bool.and_eq_true] at hprop
    obtain ⟨h1, h2⟩ := hprop
    have hw : w = u := by simpa using h2
    subst hw
    exact ⟨v, he, by simpa [List.elem_iff] using h1⟩
  · rintro ⟨v, hvu, hv⟩
    exact ⟨(v, u), hvu, by simp [List.elem_iff, hv]⟩

theorem topoGo_some_spec (g : DepGraph) :
    ∀ (fuel : Nat) (r L : List Nat), topoGo g fuel r = some L →
      L.Perm r ∧ List.Pairwise (fun a b => (b, a) ∉ g.edges) L
      ∧ ∀ u ∈ L, (u, u) ∉ g.edges := by
  intro fuel
  induction fuel with
  | zero =>
    intro r L h
    cases r with
    | nil =>
      cases h
      exact ⟨List.Perm.refl _, List.Pairwise.nil, by simp⟩
    | cons x xs => cases h
  | succ n ih =>
    intro r L h
    cases r with
    | nil =>
      cases h
      exact ⟨List.Perm.refl _, List.Pairwise.nil, by simp⟩
    | cons x xs =>
      cases hfind : (x :: xs).find? (fun u => !hasIncomingFrom g (x :: xs) u) with
      | none =>
        simp only [topoGo, hfind] at h
        exact Option.noConfusion h
      | some u =>
        simp only [topoGo, hfind, Option.map_eq_some'] at h
        obtain ⟨L2, hgo, hL⟩ := h
        subst hL
        have hu_mem : u ∈ x :: xs := List.mem_of_find?_eq_some hfind
        have hnoin : hasIncomingFrom g (x :: xs) u = false := by
          have h2 := List.find?_some hfind
          simpa using h2
        obtain ⟨hperm, hpw, hself⟩ := ih _ _ hgo
        refine ⟨?_, ?_, ?_⟩
        · exact (hperm.cons u).trans (List.perm_cons_erase hu_mem).symm
        · refine List.pairwise_cons.mpr ⟨?_, hpw⟩
          intro b hb
          have hb2 : b ∈ x :: xs := List.mem_of_mem_erase (hperm.mem_iff.mp hb)
          intro hedge
          exact absurd ((hasIncomingFrom_true_iff g (x :: xs) u).mpr ⟨b, hedge, hb2⟩)
            (by simp [hnoin])
        · intro v hv
          rcases List.mem_cons.mp hv with rfl | hv2
          · intro hedge
            exact absurd ((hasIncomingFrom_true_iff g (x :: xs) v).mpr ⟨v, hedge, hu_mem⟩)
              (by simp [hnoin])
          · exact hself v hv2

theorem topoGo_none_blocked (g : DepGraph) :
    ∀ (fuel : Nat) (r : List Nat), r.length ≤ fuel → topoGo g fuel r = none →
      ∃ R : List Nat, R ≠ [] ∧ ∀ u ∈ R, hasIncomingFrom g R u = true := by
  intro fuel
  induction fuel with
  | zero =>
    intro r hlen h
    cases r with
    | nil => cases h
    | cons x xs => simp at hlen
  | succ n ih =>
    intro r hlen h
    cases r with
    | nil => cases h
    | cons x xs =>
      cases hfind : (x :: xs).find? (fun u => !hasIncomingFrom g (x :: xs) u) with
      | none =>
        refine ⟨x :: xs, by simp, ?_⟩
        intro u hu
        have h2 := List.find?_eq_none.mp hfind u hu
        simpa using h2
      | some u =>
        simp only [topoGo, hfind, Option.map_eq_none'] at h
        have hu_mem : u ∈ x :: xs := List.mem_of_find?_eq_some hfind
        have hlen2 : ((x :: xs).erase u).length ≤ n := by
          rw [List.length_erase_of_mem hu_mem]
          simp only [List.length_cons] at hlen ⊢
          omega
        exact ih _ hlen2 h

theorem blocked_isCyclic (g : DepGraph) (R : List Nat) (hne : R ≠ [])
    (hblock : ∀ u ∈ R, hasIncomingFrom g R u = true) : IsCyclic g := by
  have hstep : ∀ u : {x // x ∈ R}, ∃ v : {x // x ∈ R}, (v.1, u.1) ∈ g.edges := by
    intro u
    obtain ⟨v, hvu, hv⟩ := (hasIncomingFrom_true_iff g R u.1).mp (hblock u.1 u.2)
    exact ⟨⟨v, hv⟩, hvu⟩
  obtain ⟨u0, hu0⟩ : ∃ u0, u0 ∈ R := by
    cases R with
    | nil => exact absurd rfl hne
    | cons x xs => exact ⟨x, by simp⟩
  classical
  let F : {x // x ∈ R} → {x // x ∈ R} := fun u => (hstep u).choose
  have hF : ∀ u, ((F u).1, u.1) ∈ g.edges := fun u => (hstep u).choose_spec
  let seq : Nat → {x // x ∈ R} := fun n => F^[n] ⟨u0, hu0⟩
  have hseq : ∀ n, ((seq (n + 1)).1, (seq n).1) ∈ g.edges := by
    intro n
    have h2 : seq (n + 1) = F (seq n) := Function.iterate_succ_apply' F n _
    rw [h2]
    exact hF (seq n)
  have htrans : ∀ i j, i < j → Relation.TransGen g.HasEdge (seq j).1 (seq i).1 := by
    intro i j hij
    induction j with
    | zero => omega
    | succ k ihk =>
      rcases Nat.lt_succ_iff_lt_or_eq.mp hij with hlt | heq2
      · exact Relation.TransGen.head (hseq k) (ihk hlt)
      · subst heq2
        exact Relation.TransGen.single (hseq i)
  have hmaps : ∀ i ∈ Finset.range (R.length + 1), (seq i).1 ∈ R.toFinset := by
    intro i _
    exact List.mem_toFinset.mpr (seq i).2
  have hcard : R.toFinset.card < (Finset.range (R.length + 1)).card := by
    rw [Finset.card_range]
    exact Nat.lt_succ_of_le R.toFinset_card_le
  obtain ⟨i, hi, j, hj, hne2, heq⟩ :=
    Finset.exists_ne_map_eq_of_card_lt_of_maps_to hcard hmaps
  rcases Nat.lt_trichotomy i j with hij | hij | hij
  · exact ⟨(seq j).1, heq ▸ htrans i j hij⟩
  · exact absurd hij hne2
  · exact ⟨(seq i).1, heq ▸ htrans j i hij⟩

theorem toposort_some_spec (g : DepGraph) (order : List Nat)
    (h : toposort g = some order) :
    order.Perm (List.range g.nodes.length)
    ∧ List.Pairwise (fun a b => (b, a) ∉ g.edges) order
    ∧ ∀ u ∈ order, (u, u) ∉ g.edges :=
  topoGo_some_spec g g.nodes.length (List.range g.nodes.length) order h

theorem edge_indexOf_lt (g : DepGraph) (order : List Nat)
    (hvalid : EdgesValid g) (htopo : toposort g = some order) :
    ∀ a b, (a, b) ∈ g.edges → order.indexOf a < order.indexOf b := by
  obtain ⟨hperm, hpw, hself⟩ := toposort_some_spec g order htopo
  intro a b hedge
  have hmem : ∀ v, v < g.nodes.length → v ∈ order := by
    intro v hv
    exact hperm.mem_iff.mpr (List.mem_range.mpr hv)
  have ha : a ∈ order := hmem a (hvalid _ hedge).1
  have hb : b ∈ order := hmem b (hvalid _ hedge).2
  have hab : a ≠ b := by
    rintro rfl
    exact hself a ha hedge
  have hpw2 := List.pairwise_iff_get.mp hpw
  rcases Nat.lt_trichotomy (order.indexOf a) (order.indexOf b) with h1 | h1 | h1
  · exact h1
  · exfalso
    apply hab
    have h2 : order.get ⟨order.indexOf a, List.indexOf_lt_length.mpr ha⟩ = a :=
      List.indexOf_get _
    have h3 : order.get ⟨order.indexOf b, List.indexOf_lt_length.mpr hb⟩ = b :=
      List.indexOf_get _
    rw [← h2, ← h3]
    congr 1
    exact Fin.ext h1
  · exfalso
    have h2 := hpw2 ⟨order.indexOf b, List.indexOf_lt_length.mpr hb⟩
      ⟨order.indexOf a, List.indexOf_lt_length.mpr ha⟩ h1
    rw [List.indexOf_get, List.indexOf_get] at h2
    exact h2 hedge

theorem toposort_some_not_isCyclic (g : DepGraph) (order : List Nat)
    (hvalid : EdgesValid g) (htopo : toposort g = some order) : ¬IsCyclic g := by
  rintro ⟨u, hcyc⟩
  have hstep : ∀ x y, Relation.TransGen g.HasEdge x y →
      order.indexOf x < order.indexOf y := by
    intro x y hxy
    induction hxy with
    | single h => exact edge_indexOf_lt g order hvalid htopo _ _ h
    | tail hab hbc ih =>
      exact Nat.lt_trans ih (edge_indexOf_lt g order hvalid htopo _ _ hbc)
  exact Nat.lt_irrefl _ (hstep u u hcyc)

theorem indexOf_rel_of_pairwise {α : Type} [DecidableEq α] (P : α → α → Prop)
    (l : List α) (hpw : List.Pairwise P l) (a b : α) (ha : a ∈ l) (hb : b ∈ l)
    (hab : a ≠ b) (hnot : ¬P a b) : l.indexOf b < l.indexOf a := by
  have hpw2 := List.pairwise_iff_get.mp hpw
  rcases Nat.lt_trichotomy (l.indexOf a) (l.indexOf b) with h1 | h1 | h1
  · exfalso
    have h2 := hpw2 ⟨l.indexOf a, List.indexOf_lt_length.mpr ha⟩
      ⟨l.indexOf b, List.indexOf_lt_length.mpr hb⟩ h1
    rw [List.indexOf_get, List.indexOf_get] at h2
    exact hnot h2
  · exfalso
    apply hab
    have h2 : l.get ⟨l.indexOf a, List.indexOf_lt_length.mpr ha⟩ = a :=
      List.indexOf_get _
    have h3 : l.get ⟨l.indexOf b, List.indexOf_lt_length.mpr hb⟩ = b :=
      List.indexOf_get _
    rw [← h2, ← h3]
    congr 1
    exact Fin.ext h1
  · exact h1

theorem indexOf_lt_of_mem_take {α : Type} [DecidableEq α] :
    ∀ (l : List α) (k : Nat) (x : α), x ∈ l.take k → l.indexOf x < k
  | [], k, x, h => by simp at h
  | y :: ys, 0, x, h => by simp at h
  | y :: ys, k + 1, x, h => by
    rw [List.take_succ_cons] at h
    rcases List.mem_cons.mp h with rfl | h2
    · simp [List.indexOf_cons_self]
    · by_cases hxy : x = y
      · subst hxy
        simp [List.indexOf_cons_self]
      · rw [List.indexOf_cons_ne _ (by simpa using Ne.symm hxy)]
        exact Nat.succ_lt_succ (indexOf_lt_of_mem_take ys k x h2)

theorem mem_take_of_indexOf_lt {α : Type} [DecidableEq α] :
    ∀ (l : List α) (k : Nat) (x : α), x ∈ l → l.indexOf x < k → x ∈ l.take k
  | [], k, x, hx, h => by simp at hx
  | y :: ys, 0, x, hx, h => by simp at h
  | y :: ys, k + 1, x, hx, h => by
    rw [List.take_succ_cons]
    by_cases hxy : x = y
    · subst hxy
      simp
    · rcases List.mem_cons.mp hx with rfl | hx2
      · exact absurd rfl hxy
      · rw [List.indexOf_cons_ne _ (by simpa using Ne.symm hxy)] at h
        exact List.mem_cons.mpr (Or.inr (mem_take_of_indexOf_lt ys k x hx2
          (Nat.lt_of_succ_lt_succ h)))

theorem indexOf_take_eq {α : Type} [DecidableEq α] :
    ∀ (l : List α) (k : Nat) (x : α), x ∈ l.take k →
      (l.take k).indexOf x = l.indexOf x
  | [], k, x, h => by simp at h
  | y :: ys, 0, x, h => by simp at h
  | y :: ys, k + 1, x, h => by
    rw [List.take_succ_cons] at h ⊢
    by_cases hxy : x = y
    · subst hxy
      simp [List.indexOf_cons_self]
    · rw [List.indexOf_cons_ne _ (by simpa using Ne.symm hxy),
        List.indexOf_cons_ne _ (by simpa using Ne.symm hxy)]
      rcases List.mem_cons.mp h with rfl | h2
      · exact absurd rfl hxy
      · exact congrArg Nat.succ (indexOf_take_eq ys k x h2)

/-- C4: `make` runs the nodes in the reverse of the topological order computed
by `toposort` (the processed trace is a prefix of that schedule, cut short only
by an error), the schedule puts every direct and transitive dependency strictly
before its dependent (edge `a → b` means `a` depends on `b`, and `b` comes
strictly earlier), and consequently whenever node `a` with an edge to `b` is
processed, `b` was processed before it. -/
theorem make_respects_dependency_order (g : DepGraph) (mp : MakeParams) (fs : FS)
    (order : List Nat) (hvalid : EdgesValid g) (htopo : toposort g = some order) :
    (∃ k, (make g mp fs).processed = order.reverse.take k)
    ∧ (∀ a b, Relation.TransGen g.HasEdge a b → order.indexOf a < order.indexOf b)
    ∧ (∀ a b, (a, b) ∈ g.edges → a ∈ (make g mp fs).processed →
        b ∈ (make g mp fs).processed
        ∧ (make g mp fs).processed.indexOf b < (make g mp fs).processed.indexOf a) := by
  obtain ⟨hperm, hpw, hself⟩ := toposort_some_spec g order htopo
  have hmake : make g mp fs = runNodes g (forceOf mp) order.reverse fs := by
    simp only [make, htopo]
  have htake : ∃ k, (make g mp fs).processed = order.reverse.take k := by
    rw [hmake]
    obtain ⟨k, _, hp⟩ := runNodes_processed_take g (forceOf mp) order.reverse fs
    exact ⟨k, hp⟩
  have hsched_pw : List.Pairwise (fun x y => (x, y) ∉ g.edges) order.reverse := by
    rw [List.pairwise_reverse]
    exact hpw
  have hsched_lt : ∀ a b, (a, b) ∈ g.edges →
      order.reverse.indexOf b < order.reverse.indexOf a := by
    intro a b hedge
    have ha : a ∈ order.reverse := by
      rw [List.mem_reverse]
      exact hperm.mem_iff.mpr (List.mem_range.mpr (hvalid _ hedge).1)
    have hb : b ∈ order.reverse := by
      rw [List.mem_reverse]
      exact hperm.mem_iff.mpr (List.mem_range.mpr (hvalid _ hedge).2)
    have hab : a ≠ b := by
      rintro rfl
      exact hself a (List.mem_reverse.mp ha) hedge
    exact indexOf_rel_of_pairwise _ order.reverse hsched_pw a b ha hb hab
      (fun hcon => hcon hedge)
  refine ⟨htake, ?_, ?_⟩
  · intro a b htg
    induction htg with
    | single h => exact edge_indexOf_lt g order hvalid htopo _ _ h
    | tail hab hbc ih =>
      exact Nat.lt_trans ih (edge_indexOf_lt g order hvalid htopo _ _ hbc)
  · intro a b hedge hproc
    obtain ⟨k, hk⟩ := htake
    rw [hk] at hproc ⊢
    have hb_mem : b ∈ order.reverse := by
      rw [List.mem_reverse]
      exact hperm.mem_iff.mpr (List.mem_range.mpr (hvalid _ hedge).2)
    have hlt := hsched_lt a b hedge
    have ha_lt : order.reverse.indexOf a < k := indexOf_lt_of_mem_take _ _ _ hproc
    have hb_take : b ∈ order.reverse.take k :=
      mem_take_of_indexOf_lt _ _ _ hb_mem (Nat.lt_trans hlt ha_lt)
    refine ⟨hb_take, ?_⟩
    rw [indexOf_take_eq _ _ _ hb_take, indexOf_take_eq _ _ _ hproc]
    exact hlt

/-- Witness for C4: in `gW2` (node 0 depends on leaves 1 and 2) over a
filesystem where everything exists, node 1 is processed before node 0. -/
theorem make_respects_dependency_order_witness :
    1 ∈ (make gW2 .None fsAll).processed
    ∧ (make gW2 .None fsAll).processed.indexOf 1
      < (make gW2 .None fsAll).processed.indexOf 0 :=
  (make_respects_dependency_order gW2 .None fsAll [0, 1, 2] (by decide)
    (by decide)).2.2 0 1 (by decide) (by decide)

theorem is_cyclic_directed_iff (g : DepGraph) (hvalid : EdgesValid g) :
    is_cyclic_directed g = true ↔ IsCyclic g := by
  unfold is_cyclic_directed
  rw [Option.isNone_iff_eq_none]
  constructor
  · intro h
    obtain ⟨R, hne, hblock⟩ := topoGo_none_blocked g g.nodes.length
      (List.range g.nodes.length) (by simp) h
    exact blocked_isCyclic g R hne hblock
  · intro hcyc
    cases htopo : toposort g with
    | none => rfl
    | some order => exact absurd hcyc (toposort_some_not_isCyclic g order hvalid htopo)

/-! ## Lemmas about the builder passes -/

theorem lookup_eq_none_iff {β : Type} (files : List (Path × β)) (p : Path) :
    files.lookup p = none ↔ p ∉ files.map Prod.fst := by
  induction files with
  | nil => simp
  | cons e rest ih =>
    rcases e with ⟨q, v⟩
    by_cases hpq : p = q
    · subst hpq
      simp [List.lookup]
    · have hbeq : (p == q) = false := by simp [hpq]
      simp [List.lookup, hbeq, ih, hpq]

theorem lookup_mem {β : Type} (files : List (Path × β)) (p : Path) (i : β)
    (h : files.lookup p = some i) : (p, i) ∈ files := by
  induction files with
  | nil => cases h
  | cons e rest ih =>
    rcases e with ⟨q, v⟩
    by_cases hpq : p = q
    · subst hpq
      simp [List.lookup] at h
      simp [h]
    · have hbeq : (p == q) = false := by simp [hpq]
      simp only [List.lookup, hbeq] at h
      exact List.mem_cons_of_mem _ (ih h)

theorem nodeName_append (nodes ext : List DependencyNode) (i : Nat)
    (h : i < nodes.length) : nodeName (nodes ++ ext) i = nodeName nodes i := by
  unfold nodeName
  rw [List.get?_append h]

theorem nodeName_concat (nodes : List DependencyNode) (d : DependencyNode) :
    nodeName (nodes ++ [d]) nodes.length = d.filename := by
  unfold nodeName
  rw [List.get?_concat_length]
  rfl

theorem pass1_error_eq : ∀ (rules : List Rule) (files : List (Path × Nat))
    (nodes : List DependencyNode) (ean : List (Nat × List Path)) (e : Error),
    pass1 rules files nodes ean = .error e → e = .DuplicateFile := by
  intro rules
  induction rules with
  | nil => intro files nodes ean e h; cases h
  | cons r rest ih =>
    intro files nodes ean e h
    rcases r with ⟨f0, ds, fn⟩
    rw [pass1] at h
    split at h
    · cases h; rfl
    · exact ih _ _ _ _ h

theorem pass1_ok_iff : ∀ (rules : List Rule) (files : List (Path × Nat))
    (nodes : List DependencyNode) (ean : List (Nat × List Path)),
    (∃ res, pass1 rules files nodes ean = .ok res) ↔
      ((outputs rules).Nodup ∧ ∀ p ∈ outputs rules, p ∉ files.map Prod.fst) := by
  intro rules
  induction rules with
  | nil =>
    intro files nodes ean
    simp [pass1, outputs]
  | cons r rest ih =>
    intro files nodes ean
    rcases r with ⟨f0, ds, fn⟩
    cases hlk : (files.lookup f0).isSome with
    | true =>
      have hf0 : f0 ∈ files.map Prod.fst := by
        rcases Option.isSome_iff_exists.mp hlk with ⟨i, hi⟩
        exact List.mem_map.mpr ⟨(f0, i), lookup_mem _ _ _ hi, rfl⟩
      simp only [pass1, hlk, if_true]
      constructor
      · rintro ⟨res, h⟩
        cases h
      · rintro ⟨hnd, hall⟩
        exact absurd hf0 (hall f0 (by simp [outputs]))
    | false =>
      have hf0 : f0 ∉ files.map Prod.fst := by
        rw [← lookup_eq_none_iff]
        exact Option.not_isSome_iff_eq_none.mp (by simp [hlk])
      simp only [pass1, hlk, Bool.false_eq_true, if_false]
      rw [ih]
      simp only [outputs, List.map_cons, List.mem_cons, List.nodup_cons]
      constructor
      · rintro ⟨hnd, hall⟩
        refine ⟨⟨fun hmem => (hall _ hmem) (Or.inl rfl), hnd⟩, ?_⟩
        intro p hp
        rcases hp with rfl | hp2
        · exact hf0
        · intro hk
          exact hall p hp2 (Or.inr hk)
      · rintro ⟨⟨hf0out, hnd⟩, hall⟩
        refine ⟨hnd, ?_⟩
        intro p hp hmem
        rcases hmem with rfl | hk
        · exact hf0out hp
        · exact hall p (Or.inr hp) hk

theorem pass1_ok_shape : ∀ (rules : List Rule) (files : List (Path × Nat))
    (nodes : List DependencyNode) (ean : List (Nat × List Path))
    (files2 : List (Path × Nat)) (nodes2 : List DependencyNode)
    (ean2 : List (Nat × List Path)),
    pass1 rules files nodes ean = .ok (files2, nodes2, ean2) →
    files2 = pass1Files nodes.length rules ++ files
    ∧ nodes2 = nodes ++ pass1Nodes rules
    ∧ ean2 = ean ++ pass1Ean nodes.length rules := by
  intro rules
  induction rules with
  | nil =>
    intro files nodes ean f2 n2 e2 h
    cases h
    exact ⟨by simp [pass1Files], by simp [pass1Nodes], by simp [pass1Ean]⟩
  | cons r rest ih =>
    intro files nodes ean f2 n2 e2 h
    rcases r with ⟨f0, ds, fn⟩
    cases hlk : (files.lookup f0).isSome with
    | true =>
      rw [pass1, hlk] at h
      simp at h
    | false =>
      rw [pass1, hlk] at h
      simp only [Bool.false_eq_true, if_false] at h
      obtain ⟨h1, h2, h3⟩ := ih _ _ _ _ _ _ h
      refine ⟨?_, ?_, ?_⟩
      · rw [h1]
        simp [pass1Files, List.append_assoc]
      · rw [h2]
        simp [pass1Nodes]
      · rw [h3]
        simp [pass1Ean]

theorem pass1Files_keys : ∀ (base : Nat) (rules : List Rule),
    (pass1Files base rules).map Prod.fst = (outputs rules).reverse := by
  intro base rules
  induction rules generalizing base with
  | nil => simp [pass1Files, outputs]
  | cons r rest ih => simp [pass1Files, outputs, ih]

theorem pass1Files_mem : ∀ (rules : List Rule) (base : Nat) (p : Path) (i : Nat),
    (p, i) ∈ pass1Files base rules ↔
      ∃ k r, rules.get? k = some r ∧ p = r.1 ∧ i = base + k := by
  intro rules
  induction rules with
  | nil => intro base p i; simp [pass1Files]
  | cons r0 rest ih =>
    intro base p i
    simp only [pass1Files, List.mem_append]
    constructor
    · intro h
      rcases h with h | h
      · obtain ⟨k, r, hk, hp, hi⟩ := (ih (base + 1) p i).mp h
        exact ⟨k + 1, r, by simpa using hk, hp, by omega⟩
      · simp only [List.mem_singleton, Prod.mk.injEq] at h
        exact ⟨0, r0, rfl, h.1, by omega⟩
    · rintro ⟨k, r, hk, hp, hi⟩
      cases k with
      | zero =>
        simp only [List.get?_cons_zero, Option.some.injEq] at hk
        subst hk
        right
        simp [hp, hi]
      | succ k2 =>
        left
        exact (ih (base + 1) p i).mpr ⟨k2, r, by simpa using hk, hp, by omega⟩

theorem pass1Files_length (base : Nat) (rules : List Rule) :
    (pass1Files base rules).length = rules.length := by
  have h := congrArg List.length (pass1Files_keys base rules)
  simpa [outputs] using h

theorem pass1Nodes_length (rules : List Rule) :
    (pass1Nodes rules).length = rules.length := by
  simp [pass1Nodes]

theorem pass1Nodes_nodeName (rules : List Rule) (k : Nat) (r : Rule)
    (hk : rules.get? k = some r) : nodeName (pass1Nodes rules) k = r.1 := by
  unfold nodeName pass1Nodes
  rw [List.get?_map, hk]
  rfl

theorem pass1Nodes_names (rules : List Rule) :
    (pass1Nodes rules).map (fun d => d.filename) = outputs rules := by
  simp [pass1Nodes, outputs, List.map_map]

theorem pass1Ean_mem : ∀ (rules : List Rule) (base : Nat) (pr : Nat × List Path),
    pr ∈ pass1Ean base rules ↔
      ∃ k r, rules.get? k = some r ∧ pr = (base + k, r.2.1) := by
  intro rules
  induction rules with
  | nil => intro base pr; simp [pass1Ean]
  | cons r0 rest ih =>
    intro base pr
    simp only [pass1Ean, List.mem_cons]
    constructor
    · intro h
      rcases h with rfl | h
      · exact ⟨0, r0, rfl, by simp⟩
      · obtain ⟨k, r, hk, hpr⟩ := (ih (base + 1) pr).mp h
        exact ⟨k + 1, r, by simpa using hk, by simp [hpr]; omega⟩
    · rintro ⟨k, r, hk, hpr⟩
      cases k with
      | zero =>
        simp only [List.get?_cons_zero, Option.some.injEq] at hk
        subst hk
        left
        simp [hpr]
      | succ k2 =>
        right
        refine (ih (base + 1) pr).mpr ⟨k2, r, by simpa using hk, ?_⟩
        rw [hpr]
        congr 1
        omega

theorem pass1Ean_fst_nodup : ∀ (rules : List Rule) (base : Nat),
    ((pass1Ean base rules).map Prod.fst).Nodup := by
  intro rules
  induction rules with
  | nil => intro base; simp [pass1Ean]
  | cons r0 rest ih =>
    intro base
    simp only [pass1Ean, List.map_cons, List.nodup_cons]
    refine ⟨?_, ih (base + 1)⟩
    intro hmem
    obtain ⟨pr, hpr, hfst⟩ := List.mem_map.mp hmem
    obtain ⟨k, r, hk, hpr2⟩ := (pass1Ean_mem rest (base + 1) pr).mp hpr
    rw [hpr2] at hfst
    simp at hfst
    omega

theorem pass1_buildInv (rules : List Rule) (hnd : (outputs rules).Nodup) :
    BuildInv (pass1Files 0 rules) (pass1Nodes rules) := by
  constructor
  · intro p i h
    obtain ⟨k, r, hk, hp, hi⟩ := (pass1Files_mem rules 0 p i).mp h
    have hklen : k < rules.length := by
      rcases List.get?_eq_some.mp hk with ⟨hlt, _⟩
      exact hlt
    subst hp
    constructor
    · rw [pass1Nodes_length]
      omega
    · have h2 := pass1Nodes_nodeName rules k r hk
      rw [hi]
      simpa using h2
  · rw [pass1Files_keys]
    exact List.nodup_reverse.mpr hnd
  · rw [pass1Nodes_names]
    exact hnd
  · intro d hd
    rw [pass1Files_keys, List.mem_reverse]
    have h2 : d.filename ∈ (pass1Nodes rules).map (fun d => d.filename) :=
      List.mem_map.mpr ⟨d, hd, rfl⟩
    rwa [pass1Nodes_names] at h2
  · rw [pass1Files_length, pass1Nodes_length]

theorem pass2Deps_spec : ∀ (deps : List Path) (idx : Nat)
    (files : List (Path × Nat)) (nodes : List DependencyNode)
    (edges : List (Nat × Nat)) (f2 : List (Path × Nat))
    (n2 : List DependencyNode) (e2 : List (Nat × Nat)),
    pass2Deps idx deps files nodes edges = (f2, n2, e2) →
    BuildInv files nodes →
    BuildInv f2 n2
    ∧ (∃ ext, n2 = nodes ++ ext ∧ ∀ d ∈ ext, d.build_fn = none)
    ∧ (∀ p, p ∈ f2.map Prod.fst ↔ p ∈ files.map Prod.fst ∨ p ∈ deps)
    ∧ ∃ block, e2 = edges ++ block
        ∧ (∀ e ∈ block, e.1 = idx)
        ∧ (block.map (fun e => nodeName n2 e.2)) = deps
        ∧ ∀ e ∈ block, e.2 < n2.length := by
  intro deps
  induction deps with
  | nil =>
    intro idx files nodes edges f2 n2 e2 h hinv
    cases h
    refine ⟨hinv, ⟨[], by simp⟩, by simp, [], by simp⟩
  | cons dep rest ih =>
    intro idx files nodes edges f2 n2 e2 h hinv
    rw [pass2Deps] at h
    cases hlk : files.lookup dep with
    | some i2 =>
      rw [hlk] at h
      obtain ⟨hi2lt, hi2name⟩ := hinv.mapsTo dep i2 (lookup_mem _ _ _ hlk)
      obtain ⟨hinv2, ⟨ext, hext, hfn⟩, hkeys, block, hblock, hsrc, hnames, hbound⟩ :=
        ih idx files nodes (edges ++ [(idx, i2)]) f2 n2 e2 h hinv
      have hdep_key : dep ∈ files.map Prod.fst :=
        List.mem_map.mpr ⟨(dep, i2), lookup_mem _ _ _ hlk, rfl⟩
      refine ⟨hinv2, ⟨ext, hext, hfn⟩, ?_, (idx, i2) :: block, ?_, ?_, ?_, ?_⟩
      · intro p
        rw [hkeys p]
        constructor
        · rintro (hp | hp)
          · exact Or.inl hp
          · exact Or.inr (List.mem_cons_of_mem _ hp)
        · rintro (hp | hp)
          · exact Or.inl hp
          · rcases List.mem_cons.mp hp with rfl | hp2
            · exact Or.inl hdep_key
            · exact Or.inr hp2
      · rw [hblock]
        simp
      · intro e he
        rcases List.mem_cons.mp he with rfl | he2
        · rfl
        · exact hsrc e he2
      · rw [List.map_cons, hnames]
        congr 1
        rw [hext, nodeName_append _ _ _ hi2lt]
        exact hi2name
      · intro e he
        rcases List.mem_cons.mp he with rfl | he2
        · rw [hext, List.length_append]
          omega
        · exact hbound e he2
    | none =>
      rw [hlk] at h
      have hdep_notkey : dep ∉ files.map Prod.fst := (lookup_eq_none_iff _ _).mp hlk
      have hdep_notname : dep ∉ nodes.map (fun d => d.filename) := by
        intro hmem
        obtain ⟨d, hd, hdn⟩ := List.mem_map.mp hmem
        exact hdep_notkey (hdn ▸ hinv.covered d hd)
      have hinv1 : BuildInv ((dep, nodes.length) :: files) (nodes ++ [⟨dep, none⟩]) := by
        constructor
        · intro p i hpi
          rcases List.mem_cons.mp hpi with heq | hpi2
          · cases heq
            refine ⟨by simp, nodeName_concat nodes ⟨dep, none⟩⟩
          · obtain ⟨hlt, hname⟩ := hinv.mapsTo p i hpi2
            exact ⟨by simp; omega, by rw [nodeName_append _ _ _ hlt]; exact hname⟩
        · simp only [List.map_cons, List.nodup_cons]
          exact ⟨hdep_notkey, hinv.keysNodup⟩
        · rw [List.map_append, List.nodup_append]
          refine ⟨hinv.namesNodup, by simp, ?_⟩
          intro a ha hb
          simp only [List.map_cons, List.map_nil, List.mem_singleton] at hb
          subst hb
          exact hdep_notname ha
        · intro d hd
          rcases List.mem_append.mp hd with hd2 | hd2
          · exact List.mem_cons_of_mem _ (hinv.covered d hd2)
          · simp only [List.mem_singleton] at hd2
            subst hd2
            simp
        · simp [hinv.sameLength]
      obtain ⟨hinv2, ⟨ext, hext, hfn⟩, hkeys, block, hblock, hsrc, hnames, hbound⟩ :=
        ih idx ((dep, nodes.length) :: files) (nodes ++ [⟨dep, none⟩])
          (edges ++ [(idx, nodes.length)]) f2 n2 e2 h hinv1
      have hn2 : n2 = nodes ++ (⟨dep, none⟩ :: ext) := by
        rw [hext]
        simp
      refine ⟨hinv2, ⟨⟨dep, none⟩ :: ext, hn2, ?_⟩, ?_, (idx, nodes.length) :: block,
        ?_, ?_, ?_, ?_⟩
      · intro d hd
        rcases List.mem_cons.mp hd with rfl | hd2
        · rfl
        · exact hfn d hd2
      · intro p
        rw [hkeys p]
        simp only [List.map_cons, List.mem_cons]
        constructor
        · rintro ((rfl | hp) | hp)
          · exact Or.inr (Or.inl rfl)
          · exact Or.inl hp
          · exact Or.inr (Or.inr hp)
        · rintro (hp | (rfl | hp))
          · exact Or.inl (Or.inr hp)
          · exact Or.inl (Or.inl rfl)
          · exact Or.inr hp
      · rw [hblock]
        simp
      · intro e he
        rcases List.mem_cons.mp he with rfl | he2
        · rfl
        · exact hsrc e he2
      · rw [List.map_cons, hnames]
        congr 1
        have hlt : nodes.length < (nodes ++ [(⟨dep, none⟩ : DependencyNode)]).length := by
          simp
        rw [hext, nodeName_append _ _ _ hlt]
        exact nodeName_concat nodes ⟨dep, none⟩
      · intro e he
        rcases List.mem_cons.mp he with rfl | he2
        · rw [hn2, List.length_append]
          simp only [List.length_cons]
          omega
        · exact hbound e he2

theorem pass2_spec : ∀ (ean : List (Nat × List Path))
    (files : List (Path × Nat)) (nodes : List DependencyNode)
    (edges : List (Nat × Nat)) (f2 : List (Path × Nat))
    (n2 : List DependencyNode) (e2 : List (Nat × Nat)),
    pass2 ean files nodes edges = (f2, n2, e2) →
    BuildInv files nodes →
    ((ean.map Prod.fst).Nodup) →
    (∀ pr ∈ ean, ∀ e ∈ edges, e.1 ≠ pr.1) →
    (∀ pr ∈ ean, pr.1 < nodes.length) →
    (∀ e ∈ edges, e.1 < nodes.length ∧ e.2 < nodes.length) →
    BuildInv f2 n2
    ∧ (∃ ext, n2 = nodes ++ ext ∧ ∀ d ∈ ext, d.build_fn = none)
    ∧ (∀ p, p ∈ f2.map Prod.fst ↔
        p ∈ files.map Prod.fst ∨ p ∈ ean.flatMap Prod.snd)
    ∧ (∀ pr ∈ ean,
        (e2.filter (fun e => e.1 == pr.1)).map (fun e => nodeName n2 e.2) = pr.2)
    ∧ (∀ e ∈ e2, e.1 < n2.length ∧ e.2 < n2.length)
    ∧ ∃ tail, e2 = edges ++ tail ∧ ∀ e ∈ tail, e.1 ∈ ean.map Prod.fst := by
  intro ean
  induction ean with
  | nil =>
    intro files nodes edges f2 n2 e2 h hinv _ _ _ hvalid0
    cases h
    exact ⟨hinv, ⟨[], by simp⟩, by simp, by simp, hvalid0, [], by simp⟩
  | cons pr rest ih =>
    intro files nodes edges f2 n2 e2 h hinv hnodup hnew hlt hvalid0
    rcases pr with ⟨idx, ds⟩
    rw [pass2] at h
    rcases hd : pass2Deps idx ds files nodes edges with ⟨f1, n1, e1⟩
    rw [hd] at h
    obtain ⟨hinv1, ⟨ext1, hext1, hfn1⟩, hkeys1, block, hblock, hsrcb, hnamesb, hboundb⟩ :=
      pass2Deps_spec ds idx files nodes edges f1 n1 e1 hd hinv
    have hidx_lt : idx < nodes.length := hlt (idx, ds) (by simp)
    have hn1len : nodes.length ≤ n1.length := by
      rw [hext1]
      simp
    have hsrc_head : idx ∉ rest.map Prod.fst := by
      have h2 := hnodup
      simp only [List.map_cons, List.nodup_cons] at h2
      exact h2.1
    obtain ⟨hinv2, ⟨ext2, hext2, hfn2⟩, hkeys2, hfilter2, hvalid2, tail2, htail2, htsrc2⟩ :=
      ih f1 n1 e1 f2 n2 e2 h hinv1
        (by
          have h2 := hnodup
          simp only [List.map_cons, List.nodup_cons] at h2
          exact h2.2)
        (by
          intro pr2 hpr2 e he
          rw [hblock] at he
          rcases List.mem_append.mp he with he2 | he2
          · exact hnew pr2 (List.mem_cons_of_mem _ hpr2) e he2
          · rw [hsrcb e he2]
            intro hcon
            exact hsrc_head (hcon ▸ List.mem_map.mpr ⟨pr2, hpr2, rfl⟩))
        (by
          intro pr2 hpr2
          exact Nat.lt_of_lt_of_le (hlt pr2 (List.mem_cons_of_mem _ hpr2)) hn1len)
        (by
          intro e he
          rw [hblock] at he
          rcases List.mem_append.mp he with he2 | he2
          · obtain ⟨h1, h2⟩ := hvalid0 e he2
            exact ⟨Nat.lt_of_lt_of_le h1 hn1len, Nat.lt_of_lt_of_le h2 hn1len⟩
          · exact ⟨by rw [hsrcb e he2]; exact Nat.lt_of_lt_of_le hidx_lt hn1len,
              hboundb e he2⟩)
    have hn2ext : n2 = nodes ++ (ext1 ++ ext2) := by
      rw [hext2, hext1, List.append_assoc]
    have hn1len2 : n1.length ≤ n2.length := by
      rw [hext2]
      simp
    refine ⟨hinv2, ⟨ext1 ++ ext2, hn2ext, ?_⟩, ?_, ?_, hvalid2, ?_⟩
    · intro d hdm
      rcases List.mem_append.mp hdm with hd2 | hd2
      · exact hfn1 d hd2
      · exact hfn2 d hd2
    · intro p
      rw [hkeys2 p, hkeys1 p]
      simp only [List.flatMap_cons, List.mem_append]
      tauto
    · intro pr2 hpr2
      rcases List.mem_cons.mp hpr2 with rfl | hpr3
      · show (e2.filter (fun e => e.1 == idx)).map (fun e => nodeName n2 e.2) = ds
        have hfe2 : e2.filter (fun e => e.1 == idx) = block := by
          rw [htail2, hblock, List.filter_append, List.filter_append]
          have h1 : edges.filter (fun e => e.1 == idx) = [] := by
            rw [List.filter_eq_nil_iff]
            intro e he
            have h3 := hnew (idx, ds) (by simp) e he
            simp [h3]
          have h2 : block.filter (fun e => e.1 == idx) = block := by
            rw [List.filter_eq_self]
            intro e he
            simp [hsrcb e he]
          have h3 : tail2.filter (fun e => e.1 == idx) = [] := by
            rw [List.filter_eq_nil_iff]
            intro e he
            have h4 := htsrc2 e he
            intro hcon
            rw [beq_iff_eq] at hcon
            exact hsrc_head (hcon ▸ h4)
          rw [h1, h2, h3]
          simp
        rw [hfe2]
        rw [← hnamesb]
        apply List.map_congr_left
        intro e he
        rw [hext2, nodeName_append _ _ _ (hboundb e he)]
      · exact hfilter2 pr2 hpr3
    · refine ⟨block ++ tail2, ?_, ?_⟩
      · rw [htail2, hblock, List.append_assoc]
      · intro e he
        rcases List.mem_append.mp he with he2 | he2
        · rw [hsrcb e he2]
          simp
        · exact List.mem_cons_of_mem _ (htsrc2 e he2)

theorem pass1Ean_flatMap : ∀ (rules : List Rule) (base : Nat),
    (pass1Ean base rules).flatMap Prod.snd = depPaths rules := by
  intro rules
  induction rules with
  | nil => intro base; simp [pass1Ean, depPaths]
  | cons r rest ih =>
    intro base
    simp [pass1Ean, depPaths, ih]

theorem nodeName_mem (nodes : List DependencyNode) (i : Nat)
    (h : i < nodes.length) :
    nodeName nodes i ∈ nodes.map (fun d => d.filename) := by
  unfold nodeName
  rw [List.get?_eq_get h]
  exact List.mem_map.mpr ⟨nodes.get ⟨i, h⟩, List.get_mem _ _ _, rfl⟩

theorem buildGraph_spec (rules : List Rule) (g : DepGraph)
    (hg : buildGraph rules = .ok g) :
    (outputs rules).Nodup
    ∧ (g.nodes.map (fun d => d.filename)).Nodup
    ∧ (∀ p, p ∈ g.nodes.map (fun d => d.filename) ↔
        p ∈ outputs rules ∨ p ∈ depPaths rules)
    ∧ EdgesValid g
    ∧ (∀ k r, rules.get? k = some r →
        (g.edges.filter (fun e => e.1 == k)).map (fun e => nodeName g.nodes e.2)
          = r.2.1)
    ∧ (∃ ext, g.nodes = pass1Nodes rules ++ ext ∧ ∀ d ∈ ext, d.build_fn = none)
    ∧ g.nodes.length = (outputs rules).toFinset.card
        + ((depPaths rules).toFinset \ (outputs rules).toFinset).card := by
  unfold buildGraph at hg
  cases hp1 : pass1 rules [] [] [] with
  | error e => rw [hp1] at hg; cases hg
  | ok res =>
    rcases res with ⟨files1, nodes1, ean1⟩
    rw [hp1] at hg
    obtain ⟨hf1, hn1, he1⟩ := pass1_ok_shape rules [] [] [] files1 nodes1 ean1 hp1
    simp only [List.nil_append, List.append_nil, List.length_nil] at hf1 hn1 he1
    have hnd : (outputs rules).Nodup := by
      have h2 := (pass1_ok_iff rules [] [] []).mp ⟨_, hp1⟩
      exact h2.1
    subst hf1
    subst hn1
    subst he1
    dsimp only at hg
    rcases hp2 : pass2 (pass1Ean 0 rules) (pass1Files 0 rules) (pass1Nodes rules) []
      with ⟨f2, n2, e2⟩
    rw [hp2] at hg
    dsimp only at hg
    cases hg
    obtain ⟨hinv2, ⟨ext, hext, hfn⟩, hkeys, hfilter, hvalid, _⟩ :=
      pass2_spec (pass1Ean 0 rules) (pass1Files 0 rules) (pass1Nodes rules) []
        f2 n2 e2 hp2 (pass1_buildInv rules hnd) (pass1Ean_fst_nodup rules 0)
        (by intro pr _ e he; cases he)
        (by
          intro pr hpr
          obtain ⟨k, r, hk, hpr2⟩ := (pass1Ean_mem rules 0 pr).mp hpr
          rw [hpr2]
          rw [pass1Nodes_length]
          simpa using (List.get?_eq_some.mp hk).1)
        (by intro e he; cases he)
    have hnames_keys : ∀ p, p ∈ n2.map (fun d => d.filename) ↔
        p ∈ f2.map Prod.fst := by
      intro p
      constructor
      · intro hp
        obtain ⟨d, hd, hdn⟩ := List.mem_map.mp hp
        exact hdn ▸ hinv2.covered d hd
      · intro hp
        obtain ⟨⟨p2, i⟩, hmem, heq⟩ := List.mem_map.mp hp
        simp only at heq
        obtain ⟨hlt, hname⟩ := hinv2.mapsTo p2 i hmem
        rw [← heq, ← hname]
        exact nodeName_mem n2 i hlt
    have hkeys_io : ∀ p, p ∈ f2.map Prod.fst ↔
        p ∈ outputs rules ∨ p ∈ depPaths rules := by
      intro p
      rw [hkeys p, pass1Files_keys, List.mem_reverse, pass1Ean_flatMap]
    refine ⟨hnd, hinv2.namesNodup, ?_, hvalid, ?_, ⟨ext, hext, hfn⟩, ?_⟩
    · intro p
      rw [hnames_keys p, hkeys_io p]
    · intro k r hk
      have hpr : (k, r.2.1) ∈ pass1Ean 0 rules :=
        (pass1Ean_mem rules 0 (k, r.2.1)).mpr ⟨k, r, hk, by simp⟩
      exact hfilter (k, r.2.1) hpr
    · have hlen1 : f2.length = n2.length := hinv2.sameLength
      have hlen2 : (f2.map Prod.fst).length = f2.length := List.length_map _ _
      have hcard : (f2.map Prod.fst).toFinset.card = (f2.map Prod.fst).length :=
        List.toFinset_card_of_nodup hinv2.keysNodup
      have hset : (f2.map Prod.fst).toFinset =
          (outputs rules).toFinset ∪ (depPaths rules).toFinset := by
        ext p
        simp only [List.mem_toFinset, Finset.mem_union]
        exact hkeys_io p
      have hunion : ((outputs rules).toFinset ∪ (depPaths rules).toFinset).card =
          (outputs rules).toFinset.card
            + ((depPaths rules).toFinset \ (outputs rules).toFinset).card := by
        rw [← Finset.union_sdiff_self_eq_union]
        exact Finset.card_union_of_disjoint Finset.disjoint_sdiff
      rw [← hlen1, ← hlen2, ← hcard, hset, hunion]

theorem buildGraph_ok_of_nodup (rules : List Rule) (hnd : (outputs rules).Nodup) :
    ∃ g, buildGraph rules = .ok g := by
  obtain ⟨res, hres⟩ := (pass1_ok_iff rules [] [] []).mpr ⟨hnd, by simp⟩
  unfold buildGraph
  rw [hres]
  rcases res with ⟨files1, nodes1, ean1⟩
  dsimp only
  rcases hp2 : pass2 ean1 files1 nodes1 [] with ⟨f2, n2, e2⟩
  exact ⟨⟨n2, e2⟩, rfl⟩

theorem buildGraph_error_eq (rules : List Rule) (e : Error)
    (h : buildGraph rules = .error e) : e = .DuplicateFile := by
  unfold buildGraph at h
  cases hp1 : pass1 rules [] [] [] with
  | error e2 =>
    rw [hp1] at h
    cases h
    exact pass1_error_eq rules [] [] [] e hp1
  | ok res =>
    rcases res with ⟨files1, nodes1, ean1⟩
    rw [hp1] at h
    dsimp only at h
    rcases hp2 : pass2 ean1 files1 nodes1 [] with ⟨f2, n2, e2⟩
    rw [hp2] at h
    cases h

theorem build_ok_inv (rules : List Rule) (g : DepGraph) (h : build rules = .ok g) :
    buildGraph rules = .ok g ∧ is_cyclic_directed g = false := by
  unfold build at h
  cases hbg : buildGraph rules with
  | error e =>
    rw [hbg] at h
    cases h
  | ok g2 =>
    rw [hbg] at h
    dsimp only at h
    cases hcd : is_cyclic_directed g2 with
    | true =>
      rw [hcd] at h
      simp at h
    | false =>
      rw [hcd] at h
      simp only [Bool.false_eq_true, if_false] at h
      have hgg : g2 = g := by injection h
      subst hgg
      exact ⟨rfl, hcd⟩

/-- C2: `build()` fails with `DuplicateFile` exactly when two rules declare
the same output path; with no duplicate, the two construction passes always
produce a graph, and `build()` fails with `Cycle` exactly when that graph has
a directed cycle (a self-dependency included, as a one-step cycle), returning
the graph exactly otherwise. `DuplicateFile` and `Cycle` are the only
compilation-time errors, and `Except` returns no graph in either error case. -/
theorem build_error_iff_duplicate_or_cycle (rules : List Rule) :
    (build rules = .error .DuplicateFile ↔ ¬(outputs rules).Nodup)
    ∧ ((outputs rules).Nodup → ∃ g, buildGraph rules = .ok g
        ∧ (build rules = .error .Cycle ↔ IsCyclic g)
        ∧ (build rules = .ok g ↔ ¬IsCyclic g))
    ∧ ∀ e, build rules = .error e → e = .DuplicateFile ∨ e = .Cycle := by
  by_cases hnd : (outputs rules).Nodup
  · obtain ⟨g, hg⟩ := buildGraph_ok_of_nodup rules hnd
    have hvalid := (buildGraph_spec rules g hg).2.2.2.1
    have hcyc_iff := is_cyclic_directed_iff g hvalid
    have hbuild : build rules =
        if is_cyclic_directed g then .error .Cycle else .ok g := by
      unfold build
      rw [hg]
    cases hcd : is_cyclic_directed g with
    | true =>
      rw [hcd] at hbuild
      simp only [if_true] at hbuild
      refine ⟨?_, ?_, ?_⟩
      · constructor
        · intro h
          rw [hbuild] at h
          cases h
        · intro h
          exact absurd hnd h
      · intro _
        refine ⟨g, hg, ⟨fun _ => hcyc_iff.mp hcd, fun _ => hbuild⟩, ?_⟩
        constructor
        · intro h
          rw [hbuild] at h
          cases h
        · intro h
          exact absurd (hcyc_iff.mp hcd) h
      · intro e h
        rw [hbuild] at h
        cases h
        exact Or.inr rfl
    | false =>
      rw [hcd] at hbuild
      simp only [Bool.false_eq_true, if_false] at hbuild
      have hnc : ¬IsCyclic g := by
        intro hc
        rw [hcyc_iff.mpr hc] at hcd
        cases hcd
      refine ⟨?_, ?_, ?_⟩
      · constructor
        · intro h
          rw [hbuild] at h
          cases h
        · intro h
          exact absurd hnd h
      · intro _
        refine ⟨g, hg, ?_, ⟨fun _ => hnc, fun _ => hbuild⟩⟩
        constructor
        · intro h
          rw [hbuild] at h
          cases h
        · intro h
          exact absurd h hnc
      · intro e h
        rw [hbuild] at h
        cases h
  · have hdup : buildGraph rules = .error .DuplicateFile := by
      cases hbg : buildGraph rules with
      | ok g => exact absurd (buildGraph_spec rules g hbg).1 hnd
      | error e =>
        rw [buildGraph_error_eq rules e hbg]
    have hbuild : build rules = .error .DuplicateFile := by
      unfold build
      rw [hdup]
    refine ⟨⟨fun _ => hnd, fun _ => hbuild⟩, fun h => absurd h hnd, ?_⟩
    intro e h
    rw [hbuild] at h
    cases h
    exact Or.inl rfl

/-- Witness for C2: the rule set `rsDup` declares output 0 twice, and
`build` fails with `DuplicateFile`. -/
theorem build_error_iff_duplicate_or_cycle_witness :
    build rsDup = .error .DuplicateFile :=
  (build_error_iff_duplicate_or_cycle rsDup).1.mpr (by decide)

/-- C3: for a rule set with no duplicate output whose constructed graph has no
cycle, `build()` succeeds, and the vertex count of the returned graph is the
number of distinct output paths plus the number of distinct dependency paths
that are not also declared as some rule's output. -/
theorem build_ok_vertex_count (rules : List Rule) (g : DepGraph)
    (hg : buildGraph rules = .ok g) (hnc : ¬IsCyclic g) :
    build rules = .ok g
    ∧ g.nodes.length = (outputs rules).dedup.length
        + ((depPaths rules).filter (fun p => !(outputs rules).contains p)).dedup.length := by
  obtain ⟨hnd, _, _, hvalid, _, _, hcount⟩ := buildGraph_spec rules g hg
  have hcd : is_cyclic_directed g = false := by
    cases hcd2 : is_cyclic_directed g with
    | true => exact absurd ((is_cyclic_directed_iff g hvalid).mp hcd2) hnc
    | false => rfl
  constructor
  · unfold build
    rw [hg]
    simp [hcd]
  · have h1 : (outputs rules).toFinset.card = (outputs rules).dedup.length :=
      List.card_toFinset _
    have h2 : ((depPaths rules).toFinset \ (outputs rules).toFinset).card =
        ((depPaths rules).filter (fun p => !(outputs rules).contains p)).dedup.length := by
      have hset : (depPaths rules).toFinset \ (outputs rules).toFinset =
          ((depPaths rules).filter (fun p => !(outputs rules).contains p)).toFinset := by
        ext x
        simp [List.mem_filter, List.elem_iff]
      rw [hset]
      exact List.card_toFinset _
    rw [hcount, h1, h2]

/-- Witness for C3: `rsAcyc` has 2 distinct outputs and 2 distinct
non-output dependencies; the graph has 4 vertices. -/
theorem build_ok_vertex_count_witness :
    build rsAcyc = .ok gAcyc
    ∧ gAcyc.nodes.length = (outputs rsAcyc).dedup.length
        + ((depPaths rsAcyc).filter (fun p => !(outputs rsAcyc).contains p)).dedup.length :=
  build_ok_vertex_count rsAcyc gAcyc rfl
    (toposort_some_not_isCyclic gAcyc [0, 1, 2, 3] (by decide) (by decide))

/-- C9: in every graph returned by `build()`, node filenames are pairwise
distinct (at most one `DependencyNode` per path), the node paths are exactly
the declared outputs together with the dependency paths, and a node owns a
build function exactly when its path was declared as a rule's output (so each
dependency path not declared as an output is one shared buildless leaf). -/
theorem one_node_per_path (rules : List Rule) (g : DepGraph)
    (hg : build rules = .ok g) :
    (g.nodes.map (fun d => d.filename)).Nodup
    ∧ (∀ p, (p ∈ outputs rules ∨ p ∈ depPaths rules) ↔
        p ∈ g.nodes.map (fun d => d.filename))
    ∧ ∀ i, (hi : i < g.nodes.length) →
        ((g.nodes.get ⟨i, hi⟩).build_fn.isSome = true ↔
          (g.nodes.get ⟨i, hi⟩).filename ∈ outputs rules) := by
  obtain ⟨hbg, _⟩ := build_ok_inv rules g hg
  obtain ⟨hnd, hnodup, hio, _, _, ⟨ext, hext, hfn⟩, _⟩ := buildGraph_spec rules g hbg
  refine ⟨hnodup, fun p => (hio p).symm, ?_⟩
  intro i hi
  have hd2 : g.nodes.get ⟨i, hi⟩ ∈ pass1Nodes rules ++ ext := by
    rw [← hext]
    exact List.get_mem _ _ _
  have hd := List.mem_append.mp hd2
  rcases hd with hd | hd
  · obtain ⟨r, hr, heq⟩ := List.mem_map.mp hd
    rw [← heq]
    simp only [Option.isSome_some, true_iff]
    exact List.mem_map.mpr ⟨r, hr, rfl⟩
  · rw [hfn _ hd]
    simp only [Option.isSome_none, Bool.false_eq_true, false_iff]
    intro hmem
    have hmem2 : (g.nodes.get ⟨i, hi⟩).filename ∈
        (pass1Nodes rules).map (fun d => d.filename) := by
      rw [pass1Nodes_names]
      exact hmem
    have hmem3 : (g.nodes.get ⟨i, hi⟩).filename ∈ ext.map (fun d => d.filename) :=
      List.mem_map.mpr ⟨_, hd, rfl⟩
    have hdisj := hnodup
    rw [hext, List.map_append, List.nodup_append] at hdisj
    exact hdisj.2.2 hmem2 hmem3

/-- Witness for C9: the node filenames of the graph built from `rsAcyc` are
pairwise distinct. -/
theorem one_node_per_path_witness :
    (gAcyc.nodes.map (fun d => d.filename)).Nodup :=
  (one_node_per_path rsAcyc gAcyc rfl).1

theorem nodeAt_filename (g : DepGraph) (j : Nat) :
    (nodeAt g j).filename = nodeName g.nodes j := by
  unfold nodeAt nodeName
  cases g.nodes.get? j <;> rfl

/-- C10: for the node of a rule declared with dependency paths `d1, ..., dn`
in that order, the `children` slice that `build_dependency` collects (and
passes to the build function, and uses for the existence and staleness
checks) enumerates the dependencies in reverse declared order `dn, ..., d1`:
petgraph's `neighbors_directed` walks out-edges most-recently-inserted
first. -/
theorem children_reverse_of_declared (rules : List Rule) (g : DepGraph)
    (k : Nat) (r : Rule) (hg : build rules = .ok g) (hk : rules.get? k = some r) :
    childPaths g k = r.2.1.reverse := by
  obtain ⟨hbg, _⟩ := build_ok_inv rules g hg
  obtain ⟨_, _, _, _, hfilter, _, _⟩ := buildGraph_spec rules g hbg
  have h2 := hfilter k r hk
  unfold childPaths neighbors
  rw [List.map_map, List.map_reverse]
  have h3 : (g.edges.filter (fun e => e.1 == k)).map
      ((fun j => (nodeAt g j).filename) ∘ (fun e => e.2)) = r.2.1 := by
    rw [← h2]
    apply List.map_congr_left
    intro e _
    exact nodeAt_filename g e.2
  rw [h3]

/-- Witness for C10: rule `(0, [1, 2], fWit)` of `rsAcyc` yields children
`[2, 1]` for node 0. -/
theorem children_reverse_of_declared_witness :
    childPaths gAcyc 0 = ([1, 2] : List Path).reverse :=
  children_reverse_of_declared rsAcyc gAcyc 0 (0, [1, 2], fWit) rfl rfl

/-! ## Idempotence machinery -/

theorem le_foldr_max : ∀ (l : List Nat) (a : Nat), a ∈ l → a ≤ l.foldr max 0 := by
  intro l
  induction l with
  | nil => intro a ha; cases ha
  | cons x xs ih =>
    intro a ha
    rcases List.mem_cons.mp ha with rfl | ha2
    · exact Nat.le_max_left _ _
    · exact Nat.le_trans (ih a ha2) (Nat.le_max_right _ _)

theorem fWit_wellBehaved (out : Path) : WellBehaved fWit out := by
  intro deps fs
  constructor
  · intro p hp
    simp [fWit, hp]
  · intro _
    refine ⟨(deps.map (mtimeD fs)).foldr max 0 + 1, by simp [fWit], ?_⟩
    intro d hd td htd
    have hmem : td ∈ deps.map (mtimeD fs) :=
      List.mem_map.mpr ⟨d, hd, mtimeD_eq_of_present fs d td htd⟩
    exact Nat.le_trans (le_foldr_max _ _ hmem) (Nat.le_succ _)

theorem anyCongr {α : Type} : ∀ (l : List α) (f h : α → Bool),
    (∀ a ∈ l, f a = h a) → l.any f = l.any h := by
  intro l
  induction l with
  | nil => intro f h _; rfl
  | cons x xs ih =>
    intro f h hfh
    simp only [List.any_cons]
    rw [hfh x (by simp), ih f h (fun a ha => hfh a (by simp [ha]))]

theorem dependencies_newer_congr (fs fs2 : FS) (out : Path) (deps : List Path)
    (hout : fs2 out = fs out) (hdeps : ∀ c ∈ deps, fs2 c = fs c) :
    dependencies_newer fs2 out deps = dependencies_newer fs out deps := by
  unfold dependencies_newer
  have hex : pathExists fs2 out = pathExists fs out := by
    unfold pathExists
    rw [hout]
  rw [hex]
  split
  · rfl
  · have hmt : mtimeD fs2 out = mtimeD fs out := by
      unfold mtimeD
      rw [hout]
    rw [hmt]
    apply anyCongr
    intro c hc
    have hmc : mtimeD fs2 c = mtimeD fs c := by
      unfold mtimeD
      rw [hdeps c hc]
    rw [hmc]

theorem bd_fs_untouched (g : DepGraph) (idx : Nat) (force : Bool) (fs : FS)
    (p : Path)
    (hwb : ∀ f, (nodeAt g idx).build_fn = some f →
      WellBehaved f (nodeAt g idx).filename)
    (hp : p ≠ (nodeAt g idx).filename) :
    (build_dependency g idx force fs).fs p = fs p := by
  cases hfind : (childPaths g idx).find? (fun c => !pathExists fs c) with
  | some c => rw [bd_missing_child g idx force fs c hfind]
  | none =>
    cases hf : (nodeAt g idx).build_fn with
    | none =>
      rw [bd_no_fn g idx force fs hfind hf]
      split <;> rfl
    | some f =>
      cases hcond : (force || dependencies_newer fs (nodeAt g idx).filename
          (childPaths g idx)) with
      | false =>
        rw [bd_skip g idx force fs f hfind hf hcond]
        split <;> rfl
      | true =>
        have hwb2 := (hwb f hf (childPaths g idx) fs).1 p hp
        rcases hres : f (nodeAt g idx).filename (childPaths g idx) fs with ⟨fs2, msg⟩
        rw [hres] at hwb2
        cases msg with
        | none =>
          rw [bd_run_ok g idx force fs f fs2 hfind hf hcond hres]
          split <;> exact hwb2
        | some m =>
          rw [bd_run_fail g idx force fs f fs2 m hfind hf hcond hres]
          exact hwb2

theorem bd_ok_inv (g : DepGraph) (idx : Nat) (force : Bool) (fs : FS)
    (h : (build_dependency g idx force fs).err = none) :
    (∀ c ∈ childPaths g idx, pathExists fs c = true)
    ∧ pathExists (build_dependency g idx force fs).fs (nodeAt g idx).filename = true := by
  cases hfind : (childPaths g idx).find? (fun c => !pathExists fs c) with
  | some c =>
    rw [bd_missing_child g idx force fs c hfind] at h
    exact absurd h (by simp)
  | none =>
    have hch : ∀ c ∈ childPaths g idx, pathExists fs c = true := by
      intro c hc
      have h2 := List.find?_eq_none.mp hfind c hc
      simpa using h2
    refine ⟨hch, ?_⟩
    cases hf : (nodeAt g idx).build_fn with
    | none =>
      rw [bd_no_fn g idx force fs hfind hf] at h ⊢
      revert h
      split
      · intro _
        assumption
      · intro h
        exact absurd h (by simp)
    | some f =>
      cases hcond : (force || dependencies_newer fs (nodeAt g idx).filename
          (childPaths g idx)) with
      | false =>
        rw [bd_skip g idx force fs f hfind hf hcond] at h ⊢
        revert h
        split
        · intro _
          assumption
        · intro h
          exact absurd h (by simp)
      | true =>
        rcases hres : f (nodeAt g idx).filename (childPaths g idx) fs with ⟨fs2, msg⟩
        cases msg with
        | none =>
          rw [bd_run_ok g idx force fs f fs2 hfind hf hcond hres] at h ⊢
          revert h
          split
          · intro _
            assumption
          · intro h
            exact absurd h (by simp)
        | some m =>
          rw [bd_run_fail g idx force fs f fs2 m hfind hf hcond hres] at h
          exact absurd h (by simp)

theorem bd_skip_inv (g : DepGraph) (idx : Nat) (force : Bool) (fs : FS) (f : BuildFn)
    (hf : (nodeAt g idx).build_fn = some f)
    (h : (build_dependency g idx force fs).err = none)
    (hinv : (build_dependency g idx force fs).invoked = false) :
    (build_dependency g idx force fs).fs = fs
    ∧ (force || dependencies_newer fs (nodeAt g idx).filename (childPaths g idx)) = false := by
  cases hfind : (childPaths g idx).find? (fun c => !pathExists fs c) with
  | some c =>
    rw [bd_missing_child g idx force fs c hfind] at h
    exact absurd h (by simp)
  | none =>
    cases hcond : (force || dependencies_newer fs (nodeAt g idx).filename
        (childPaths g idx)) with
    | false =>
      rw [bd_skip g idx force fs f hfind hf hcond]
      refine ⟨?_, rfl⟩
      split <;> rfl
    | true =>
      exfalso
      rcases hres : f (nodeAt g idx).filename (childPaths g idx) fs with ⟨fs2, msg⟩
      cases msg with
      | none =>
        rw [bd_run_ok g idx force fs f fs2 hfind hf hcond hres] at hinv
        revert hinv
        split <;> simp
      | some m =>
        rw [bd_run_fail g idx force fs f fs2 m hfind hf hcond hres] at hinv
        simp at hinv

theorem bd_invoked_inv (g : DepGraph) (idx : Nat) (force : Bool) (fs : FS) (f : BuildFn)
    (hf : (nodeAt g idx).build_fn = some f)
    (h : (build_dependency g idx force fs).err = none)
    (hinv : (build_dependency g idx force fs).invoked = true) :
    ∃ fs2, f (nodeAt g idx).filename (childPaths g idx) fs = (fs2, none)
      ∧ (build_dependency g idx force fs).fs = fs2
      ∧ pathExists fs2 (nodeAt g idx).filename = true := by
  cases hfind : (childPaths g idx).find? (fun c => !pathExists fs c) with
  | some c =>
    rw [bd_missing_child g idx force fs c hfind] at h
    exact absurd h (by simp)
  | none =>
    cases hcond : (force || dependencies_newer fs (nodeAt g idx).filename
        (childPaths g idx)) with
    | false =>
      rw [bd_skip g idx force fs f hfind hf hcond] at hinv
      exfalso
      revert hinv
      split <;> simp
    | true =>
      rcases hres : f (nodeAt g idx).filename (childPaths g idx) fs with ⟨fs2, msg⟩
      cases msg with
      | none =>
        refine ⟨fs2, rfl, ?_⟩
        rw [bd_run_ok g idx force fs f fs2 hfind hf hcond hres] at h ⊢
        revert h
        split
        · intro _
          exact ⟨rfl, by assumption⟩
        · intro h
          exact absurd h (by simp)
      | some m =>
        rw [bd_run_fail g idx force fs f fs2 m hfind hf hcond hres] at h
        exact absurd h (by simp)

theorem bd_settled (g : DepGraph) (idx : Nat) (fs : FS)
    (hch : ∀ c ∈ childPaths g idx, pathExists fs c = true)
    (hout : pathExists fs (nodeAt g idx).filename = true)
    (hstale : ∀ f, (nodeAt g idx).build_fn = some f →
      dependencies_newer fs (nodeAt g idx).filename (childPaths g idx) = false) :
    build_dependency g idx false fs = ⟨false, fs, none⟩ := by
  have hfind : (childPaths g idx).find? (fun c => !pathExists fs c) = none := by
    rw [List.find?_eq_none]
    intro c hc
    simp [hch c hc]
  cases hf : (nodeAt g idx).build_fn with
  | none =>
    rw [bd_no_fn g idx false fs hfind hf, if_pos hout]
  | some f =>
    rw [bd_skip g idx false fs f hfind hf (by simp [hstale f hf]), if_pos hout]

theorem nodeName_inj (g : DepGraph)
    (hnames : (g.nodes.map (fun d => d.filename)).Nodup)
    (i j : Nat) (hi : i < g.nodes.length) (hj : j < g.nodes.length) (hij : i ≠ j) :
    (nodeAt g i).filename ≠ (nodeAt g j).filename := by
  intro heq
  have hil : i < (g.nodes.map (fun d => d.filename)).length := by simpa using hi
  have hjl : j < (g.nodes.map (fun d => d.filename)).length := by simpa using hj
  have hgi : (g.nodes.map (fun d => d.filename)).get ⟨i, hil⟩ = (nodeAt g i).filename := by
    rw [List.get_map]
    unfold nodeAt
    rw [List.get?_eq_get hi]
    rfl
  have hgj : (g.nodes.map (fun d => d.filename)).get ⟨j, hjl⟩ = (nodeAt g j).filename := by
    rw [List.get_map]
    unfold nodeAt
    rw [List.get?_eq_get hj]
    rfl
  have h2 : (g.nodes.map (fun d => d.filename)).get ⟨i, hil⟩ =
      (g.nodes.map (fun d => d.filename)).get ⟨j, hjl⟩ := by
    rw [hgi, hgj, heq]
  have h3 := (List.Nodup.get_inj_iff hnames).mp h2
  exact hij (by simpa using h3)

theorem runNodes_settled (g : DepGraph) : ∀ (l : List Nat) (fs : FS),
    (∀ idx ∈ l, build_dependency g idx false fs = ⟨false, fs, none⟩) →
    runNodes g false l fs = ⟨l, [], fs, none⟩ := by
  intro l
  induction l with
  | nil => intro fs _; rfl
  | cons idx rest ih =>
    intro fs hall
    have hs := hall idx (by simp)
    simp only [runNodes, hs]
    rw [ih fs (fun j hj => hall j (by simp [hj]))]
    simp

theorem runNodes_untouched (g : DepGraph) : ∀ (l : List Nat) (fs : FS) (p : Path),
    (∀ idx ∈ l, ∀ f, (nodeAt g idx).build_fn = some f →
      WellBehaved f (nodeAt g idx).filename) →
    (∀ idx ∈ l, p ≠ (nodeAt g idx).filename) →
    (runNodes g false l fs).fs p = fs p := by
  intro l
  induction l with
  | nil => intro fs p _ _; rfl
  | cons idx rest ih =>
    intro fs p hwb hp
    have hstep := bd_fs_untouched g idx false fs p
      (hwb idx (by simp)) (hp idx (by simp))
    cases herr : (build_dependency g idx false fs).err with
    | some e =>
      simp only [runNodes, herr]
      exact hstep
    | none =>
      simp only [runNodes, herr]
      rw [ih (build_dependency g idx false fs).fs p
        (fun j hj => hwb j (by simp [hj])) (fun j hj => hp j (by simp [hj]))]
      exact hstep

theorem pathExists_congr (fs fs2 : FS) (p : Path) (h : fs2 p = fs p) :
    pathExists fs2 p = pathExists fs p := by
  unfold pathExists
  rw [h]

theorem mem_neighbors (g : DepGraph) (a j : Nat) :
    j ∈ neighbors g a ↔ (a, j) ∈ g.edges := by
  unfold neighbors
  rw [List.mem_map]
  constructor
  · rintro ⟨e, he, rfl⟩
    rw [List.mem_reverse, List.mem_filter] at he
    obtain ⟨he1, he2⟩ := he
    have h3 : e.1 = a := by simpa using he2
    rw [← h3]
    exact he1
  · intro h
    exact ⟨(a, j), by rw [List.mem_reverse, List.mem_filter]; exact ⟨h, by simp⟩, rfl⟩

theorem runNodes_ok_settled (g : DepGraph)
    (hwb : ∀ i, i < g.nodes.length → ∀ f, (nodeAt g i).build_fn = some f →
      WellBehaved f (nodeAt g i).filename)
    (hnames : (g.nodes.map (fun d => d.filename)).Nodup)
    (hvalidE : EdgesValid g) :
    ∀ (l : List Nat) (fs : FS),
    (∀ x ∈ l, x < g.nodes.length) →
    l.Nodup →
    List.Pairwise (fun a b => (a, b) ∉ g.edges) l →
    (∀ x ∈ l, (x, x) ∉ g.edges) →
    (runNodes g false l fs).err = none →
    ∀ idx ∈ l, build_dependency g idx false (runNodes g false l fs).fs =
      ⟨false, (runNodes g false l fs).fs, none⟩ := by
  intro l
  induction l with
  | nil =>
    intro fs _ _ _ _ _ idx hidx
    cases hidx
  | cons a rest ih =>
    intro fs hval hnd hpw hself herr idx hidx
    cases hs_err : (build_dependency g a false fs).err with
    | some e =>
      simp only [runNodes, hs_err] at herr
      exact Option.noConfusion herr
    | none =>
      simp only [runNodes, hs_err] at herr ⊢
      have ha_lt2 : a < g.nodes.length := hval a (by simp)
      have hval2 : ∀ x ∈ rest, x < g.nodes.length := fun x hx => hval x (by simp [hx])
      have hnd2 := (List.nodup_cons.mp hnd).2
      have ha_not_rest := (List.nodup_cons.mp hnd).1
      have hpw2 := (List.pairwise_cons.mp hpw).2
      have hpw_head := (List.pairwise_cons.mp hpw).1
      have hself2 : ∀ x ∈ rest, (x, x) ∉ g.edges := fun x hx => hself x (by simp [hx])
      have hwb_rest : ∀ j ∈ rest, ∀ f, (nodeAt g j).build_fn = some f →
          WellBehaved f (nodeAt g j).filename := fun j hj => hwb j (hval2 j hj)
      rcases List.mem_cons.mp hidx with rfl | hidx2
      · have hstep_inv := bd_ok_inv g idx false fs hs_err
        have hchild_props : ∀ c ∈ childPaths g idx,
            ∃ j, (idx, j) ∈ g.edges ∧ c = (nodeAt g j).filename := by
          intro c hc
          unfold childPaths at hc
          obtain ⟨j, hj, rfl⟩ := List.mem_map.mp hc
          exact ⟨j, (mem_neighbors g idx j).mp hj, rfl⟩
        have hchild_ne : ∀ c ∈ childPaths g idx,
            (∀ k ∈ rest, c ≠ (nodeAt g k).filename) ∧ c ≠ (nodeAt g idx).filename := by
          intro c hc
          obtain ⟨j, hedge, rfl⟩ := hchild_props c hc
          have hj_lt : j < g.nodes.length := (hvalidE _ hedge).2
          have hja : j ≠ idx := by
            rintro rfl
            exact hself j (by simp) hedge
          constructor
          · intro k hk
            have hjk : j ≠ k := by
              rintro rfl
              exact hpw_head j hk hedge
            exact nodeName_inj g hnames j k hj_lt (hval2 k hk) hjk
          · exact nodeName_inj g hnames j idx hj_lt ha_lt2 hja
        have ho_child : ∀ c ∈ childPaths g idx,
            (runNodes g false rest (build_dependency g idx false fs).fs).fs c = fs c := by
          intro c hc
          obtain ⟨hne_rest, hne_a⟩ := hchild_ne c hc
          rw [runNodes_untouched g rest (build_dependency g idx false fs).fs c
            hwb_rest hne_rest]
          exact bd_fs_untouched g idx false fs c (hwb idx ha_lt2) hne_a
        have hfname_ne_rest : ∀ k ∈ rest,
            (nodeAt g idx).filename ≠ (nodeAt g k).filename := by
          intro k hk
          have hik : idx ≠ k := by
            rintro rfl
            exact ha_not_rest hk
          exact nodeName_inj g hnames idx k ha_lt2 (hval2 k hk) hik
        have ho_out : (runNodes g false rest (build_dependency g idx false fs).fs).fs
            (nodeAt g idx).filename
            = (build_dependency g idx false fs).fs (nodeAt g idx).filename :=
          runNodes_untouched g rest (build_dependency g idx false fs).fs
            (nodeAt g idx).filename hwb_rest hfname_ne_rest
        have hch : ∀ c ∈ childPaths g idx,
            pathExists (runNodes g false rest (build_dependency g idx false fs).fs).fs c
              = true := by
          intro c hc
          rw [pathExists_congr fs _ c (ho_child c hc)]
          exact hstep_inv.1 c hc
        have hout : pathExists
            (runNodes g false rest (build_dependency g idx false fs).fs).fs
            (nodeAt g idx).filename = true := by
          rw [pathExists_congr (build_dependency g idx false fs).fs _ _ ho_out]
          exact hstep_inv.2
        have hstale : ∀ f, (nodeAt g idx).build_fn = some f →
            dependencies_newer
              (runNodes g false rest (build_dependency g idx false fs).fs).fs
              (nodeAt g idx).filename (childPaths g idx) = false := by
          intro f hf
          have hcongr := dependencies_newer_congr
            (build_dependency g idx false fs).fs
            (runNodes g false rest (build_dependency g idx false fs).fs).fs
            (nodeAt g idx).filename (childPaths g idx) ho_out
            (fun c hc => by
              rw [ho_child c hc]
              exact (bd_fs_untouched g idx false fs c (hwb idx ha_lt2)
                (hchild_ne c hc).2).symm)
          rw [hcongr]
          cases hinvk : (build_dependency g idx false fs).invoked with
          | false =>
            obtain ⟨hfs_eq, hcond⟩ := bd_skip_inv g idx false fs f hf hs_err hinvk
            rw [hfs_eq]
            simpa using hcond
          | true =>
            obtain ⟨fs2, hres, hfs2, hex2⟩ :=
              bd_invoked_inv g idx false fs f hf hs_err hinvk
            rw [hfs2]
            obtain ⟨t, hfst, hts⟩ := (hwb idx ha_lt2 f hf (childPaths g idx) fs).2
              (by rw [hres])
            rw [hres] at hfst
            simp only at hfst
            unfold dependencies_newer
            rw [hex2]
            simp only [Bool.true_eq_false, if_false]
            rw [List.any_eq_false]
            intro c hc
            obtain ⟨tc, htc⟩ := (pathExists_iff_present fs c).mp (hstep_inv.1 c hc)
            have hfs2c : fs2 c = fs c := by
              have h2 := (hwb idx ha_lt2 f hf (childPaths g idx) fs).1 c (hchild_ne c hc).2
              rw [hres] at h2
              exact h2
            have hmt_out : mtimeD fs2 (nodeAt g idx).filename = t :=
              mtimeD_eq_of_present fs2 _ t hfst
            have hmt_c : mtimeD fs2 c = tc :=
              mtimeD_eq_of_present fs2 c tc (by rw [hfs2c, htc])
            have hle : tc ≤ t := hts c hc tc htc
            rw [hmt_out, hmt_c]
            simp
            omega
        exact bd_settled g idx
          (runNodes g false rest (build_dependency g idx false fs).fs).fs
          hch hout hstale
      · exact ih (build_dependency g a false fs).fs hval2 hnd2 hpw2 hself2
          herr idx hidx2

/-- C7: under the build-function filesystem contract (each function only
writes its own output and stamps it with a fresh, monotone timestamp), if a
`make(Normal)` run succeeds, then after it every node's file exists and no
build-function-owning node has a dependency strictly newer than its output,
so a second `make(Normal)` on the unchanged filesystem invokes no build
functions, changes nothing, and succeeds. -/
theorem make_normal_idempotent (g : DepGraph)
    (hwb : ∀ i, i < g.nodes.length → ∀ f, (nodeAt g i).build_fn = some f →
      WellBehaved f (nodeAt g i).filename)
    (hnames : (g.nodes.map (fun d => d.filename)).Nodup)
    (hvalid : EdgesValid g)
    (fs : FS)
    (hok : (make g .None fs).err = none) :
    (make g .None (make g .None fs).fs).invoked = []
    ∧ (make g .None (make g .None fs).fs).fs = (make g .None fs).fs
    ∧ (make g .None (make g .None fs).fs).err = none
    ∧ ∀ i, i < g.nodes.length →
        pathExists (make g .None fs).fs (nodeAt g i).filename = true
        ∧ ∀ f, (nodeAt g i).build_fn = some f →
            dependencies_newer (make g .None fs).fs (nodeAt g i).filename
              (childPaths g i) = false := by
  cases htopo : toposort g with
  | none =>
    rw [show make g .None fs = ⟨[], [], fs, some .Cycle⟩ from by
      simp [make, htopo]] at hok
    exact absurd hok (by simp)
  | some order =>
    obtain ⟨hperm, hpw, hself⟩ := toposort_some_spec g order htopo
    have hmake : make g .None fs = runNodes g false order.reverse fs := by
      simp [make, htopo, forceOf]
    have hvalmem : ∀ x ∈ order.reverse, x < g.nodes.length := by
      intro x hx
      rw [List.mem_reverse] at hx
      exact List.mem_range.mp (hperm.mem_iff.mp hx)
    have hnd_order : order.Nodup := hperm.nodup_iff.mpr (List.nodup_range _)
    have hnd_sched : order.reverse.Nodup := List.nodup_reverse.mpr hnd_order
    have hpw_sched : List.Pairwise (fun a b => (a, b) ∉ g.edges) order.reverse := by
      rw [List.pairwise_reverse]
      exact hpw
    have hself_sched : ∀ x ∈ order.reverse, (x, x) ∉ g.edges := by
      intro x hx
      exact hself x (List.mem_reverse.mp hx)
    rw [hmake] at hok
    have hsettled := runNodes_ok_settled g hwb hnames hvalid order.reverse fs
      hvalmem hnd_sched hpw_sched hself_sched hok
    have hrun2 := runNodes_settled g order.reverse
      (runNodes g false order.reverse fs).fs hsettled
    have hmake2 : make g .None (make g .None fs).fs =
        runNodes g false order.reverse (runNodes g false order.reverse fs).fs := by
      rw [hmake]
      simp [make, htopo, forceOf]
    refine ⟨?_, ?_, ?_, ?_⟩
    · rw [hmake2, hrun2]
    · rw [hmake2, hrun2, hmake]
    · rw [hmake2, hrun2]
    · intro i hi
      have hi_mem : i ∈ order.reverse := by
        rw [List.mem_reverse]
        exact hperm.mem_iff.mpr (List.mem_range.mpr hi)
      have hset := hsettled i hi_mem
      rw [hmake]
      constructor
      · have h2 := (bd_ok_inv g i false (runNodes g false order.reverse fs).fs
          (by rw [hset])).2
        rw [hset] at h2
        exact h2
      · intro f hf
        obtain ⟨_, hcond⟩ := bd_skip_inv g i false
          (runNodes g false order.reverse fs).fs f hf (by rw [hset]) (by rw [hset])
        simpa using hcond

/-- Witness for C7: a second normal run on `gW1` after a successful first run
invokes nothing and succeeds. -/
theorem make_normal_idempotent_witness :
    (make gW1 .None (make gW1 .None fsW1).fs).invoked = []
    ∧ (make gW1 .None (make gW1 .None fsW1).fs).err = none := by
  have hwb : ∀ i, i < gW1.nodes.length → ∀ f, (nodeAt gW1 i).build_fn = some f →
      WellBehaved f (nodeAt gW1 i).filename := by
    intro i hi f hf
    have hi2 : i < 2 := hi
    interval_cases i
    · rw [show (nodeAt gW1 0).build_fn = some fWit from rfl] at hf
      cases hf
      exact fWit_wellBehaved _
    · rw [show (nodeAt gW1 1).build_fn = none from rfl] at hf
      cases hf
  have h := make_normal_idempotent gW1 hwb (by decide) (by decide) fsW1 (by decide)
  exact ⟨h.1, h.2.2.1⟩

end Depgraph
